import Mathlib

/-!
Verification of the wiki item scraper (`scripts/scrape_survivor_items.py`).

The development shallowly embeds the script's pure core: the text-cleaning
helpers, URL construction, the HTML-fragment extraction functions
(`parse_cost_cell`, `extract_description_parts`, `parse_item_page`), the
category-traversal loop of `discover_item_pages`, and the per-title error
aggregation of `main`. HTTP transport and JSON decoding are out of scope; the
remote API is modelled as data (a category graph, a render response).
-/

/-! ## Python string helpers

`re` with `str` arguments treats `\s` as whitespace; the script only ever
feeds it text extracted from HTML, for which the ASCII whitespace class is
the faithful model (as in CPython's `str.split` / `str.strip`). -/

/-- ASCII whitespace, the class matched by `\s` / stripped by `str.strip()`. -/
def isPySpace (c : Char) : Bool :=
  c == ' ' || c == '\t' || c == '\n' || c == '\x0d' || c == '\x0b' || c == '\x0c'

/-- The punctuation class of `_SPACE_BEFORE_PUNCT_RE`, i.e. `[,.;:!?%]`. -/
def isPunctAfterSpace (c : Char) : Bool :=
  c == ',' || c == '.' || c == ';' || c == ':' || c == '!' || c == '?' || c == '%'

/-- `str.lower()` restricted to ASCII letters (the script's hint needles and
category names are ASCII). -/
def asciiLowerChar (c : Char) : Char :=
  if 'A' ≤ c ∧ c ≤ 'Z' then Char.ofNat (c.toNat + 32) else c

/-- `s.lower()`. -/
def asciiLower (s : String) : String := String.mk (s.data.map asciiLowerChar)

/-- Strip `isPySpace` characters from both ends, i.e. `str.strip()`. -/
def pyStripChars (l : List Char) : List Char :=
  ((l.dropWhile isPySpace).reverse.dropWhile isPySpace).reverse

/-- `s.strip()`. -/
def pyStrip (s : String) : String := String.mk (pyStripChars s.data)

/-- `_MULTISPACE_RE.sub(" ", s)`: replace every maximal run of whitespace by a
single space. The flag records whether the previous character was part of a
whitespace run already rewritten to `' '`. -/
def collapseWsAux : Bool → List Char → List Char
  | _, [] => []
  | inRun, c :: cs =>
    if isPySpace c then
      if inRun then collapseWsAux true cs else ' ' :: collapseWsAux true cs
    else c :: collapseWsAux false cs

/-- `_MULTISPACE_RE.sub(" ", s)` on a character list. -/
def collapseWs (l : List Char) : List Char := collapseWsAux false l

/-- `_SPACE_BEFORE_PUNCT_RE.sub(r"\1", s)`: delete every maximal whitespace
run that immediately precedes one of `,.;:!?%`. Processing from the right,
a whitespace character is deleted exactly when everything between it and the
next punctuation character is whitespace that has already been deleted. -/
def rmSpaceBeforePunct : List Char → List Char
  | [] => []
  | c :: cs =>
    let rest := rmSpaceBeforePunct cs
    if isPySpace c then
      match rest with
      | p :: _ => if isPunctAfterSpace p then rest else c :: rest
      | [] => c :: rest
    else c :: rest

/-- `clean_text` from the script: collapse whitespace runs, strip, drop spaces
before punctuation, and map an empty result to `None`. -/
def clean_text : Option String → Option String
  | none => none
  | some s =>
    let t := String.mk (rmSpaceBeforePunct (pyStripChars (collapseWs s.data)))
    if t = "" then none else some t

/-- Scanner for `str.split()`: `cur` is the reversed word in progress. -/
def pyWordsAux (cur : List Char) : List Char → List (List Char)
  | [] => if cur.isEmpty then [] else [cur.reverse]
  | c :: cs =>
    if isPySpace c then
      if cur.isEmpty then pyWordsAux [] cs else cur.reverse :: pyWordsAux [] cs
    else pyWordsAux (c :: cur) cs

/-- `str.split()` with no argument: maximal runs of non-whitespace, in order,
dropping empty fragments. -/
def pyWords (l : List Char) : List (List Char) := pyWordsAux [] l

/-- Join character-list words with single spaces (`" ".join`). -/
def joinSpaces : List (List Char) → List Char
  | [] => []
  | [w] => w
  | w :: ws => w ++ ' ' :: joinSpaces ws

/-- `" ".join(parts)` on strings. -/
def joinWithSpace (parts : List String) : String :=
  String.mk (joinSpaces (parts.map String.data))

/-- `" ".join(s.split())`, the visible-text normalisation used by
`parse_cost_cell`. -/
def pyJoinSplit (s : String) : String := String.mk (joinSpaces (pyWords s.data))

/-- A word list as produced by `str.split()`: every word non-empty and free
of whitespace. -/
def goodWords (ws : List (List Char)) : Prop :=
  ∀ w ∈ ws, w ≠ [] ∧ ∀ c ∈ w, isPySpace c = false

/-- The effect of `_SPACE_BEFORE_PUNCT_RE` on a word list: each word whose
head is one of `,.;:!?%` is glued onto its predecessor. -/
def mergeWords : List (List Char) → List (List Char)
  | [] => []
  | [w] => [w]
  | w :: w' :: ws =>
    match mergeWords (w' :: ws) with
    | [] => [w]
    | v :: vs => if isPunctAfterSpace v.headI then (w ++ v) :: vs else w :: v :: vs

/-- No word after the first starts with `,.;:!?%`. -/
def noPunctHeads : List (List Char) → Prop
  | [] => True
  | [_] => True
  | _ :: v :: vs => isPunctAfterSpace v.headI = false ∧ noPunctHeads (v :: vs)

/-! ## Lexicographic order on strings

Python's `sorted` compares strings lexicographically by code point, which is
exactly Mathlib's `≤` on `String`; the bundled decision procedure
(`String.ltb`) does not reduce in the kernel, so the traversal sorts with a
structurally recursive equivalent. -/

/-- Lexicographic `≤` on character lists, by code point. -/
def lexLe : List Char → List Char → Bool
  | [], _ => true
  | _ :: _, [] => false
  | a :: as, b :: bs => if a < b then true else if b < a then false else lexLe as bs

/-- Kernel-reducible decision procedure for `≤` on `String`, used by the
sort at the end of the traversal. -/
instance strDecLE : DecidableRel (α := String) (· ≤ ·) := fun a b =>
  decidable_of_iff (lexLe a.data b.data = true) (by
    show lexLe a.data b.data = true ↔ a ≤ b
    rw [String.le_iff_toList_le, ← not_lt]
    show lexLe a.data b.data = true ↔ ¬ b.data < a.data
    generalize a.data = as
    generalize b.data = bs
    induction as generalizing bs with
    | nil =>
      constructor
      · intro _ h
        cases h
      · intro _
        trivial
    | cons x xs ih =>
      cases bs with
      | nil =>
        simp only [lexLe]
        constructor
        · intro h
          cases h
        · intro h
          exact absurd List.Lex.nil h
      | cons y ys =>
        simp only [lexLe]
        by_cases hxy : x < y
        · simp only [hxy, if_pos]
          constructor
          · intro _ h
            cases h with
            | rel h' => exact absurd h' (asymm hxy)
            | cons h' => exact absurd rfl (ne_of_lt hxy)
          · intro _
            trivial
        · by_cases hyx : y < x
          · simp only [hxy, hyx, ite_true, ite_false]
            constructor
            · intro h
              cases h
            · intro h
              exact absurd (List.Lex.rel hyx) h
          · have he : x = y := le_antisymm (not_lt.mp hyx) (not_lt.mp hxy)
            subst he
            simp only [hxy, hyx, ite_false]
            rw [ih ys]
            constructor
            · intro h h2
              cases h2 with
              | rel h' => exact absurd h' hyx
              | cons h' => exact h h'
            · intro h h2
              exact h (List.Lex.cons h2))

/-! ## URLs -/

/-- `WIKI_BASE` from the script. -/
def WIKI_BASE : String := "https://deadbydaylight.wiki.gg"

/-- `needle in hay` on character lists (contiguous substring). -/
def isSubListOf : List Char → List Char → Bool
  | ns, [] => ns.isEmpty
  | ns, c :: cs => ns.isPrefixOf (c :: cs) || isSubListOf ns cs

/-- Python's `needle in hay` for strings. -/
def strContains (needle hay : String) : Bool := isSubListOf needle.data hay.data

/-- `hay.startswith(needle)`. -/
def strStartsWith (needle hay : String) : Bool := needle.data.isPrefixOf hay.data

/-- `hay.endswith(needle)`. -/
def strEndsWith (needle hay : String) : Bool :=
  needle.data.reverse.isPrefixOf hay.data.reverse

/-- `join_url` from the script: pass through absolute URLs and the empty
string, resolve the rest against `WIKI_BASE`. -/
def join_url (p : String) : String :=
  if p = "" then p
  else if strStartsWith "http://" p || strStartsWith "https://" p then p
  else if strStartsWith "/" p then WIKI_BASE ++ p
  else WIKI_BASE ++ "/" ++ p

/-- UTF-8 encoding of one code point (CPython encodes with UTF-8 before
percent-encoding in `urllib.parse.quote`). -/
def utf8Bytes (c : Char) : List Nat :=
  let n := c.toNat
  if n < 0x80 then [n]
  else if n < 0x800 then [0xC0 + n / 64, 0x80 + n % 64]
  else if n < 0x10000 then [0xE0 + n / 4096, 0x80 + n / 64 % 64, 0x80 + n % 64]
  else [0xF0 + n / 262144, 0x80 + n / 4096 % 64, 0x80 + n / 64 % 64, 0x80 + n % 64]

/-- Uppercase hexadecimal digit. -/
def hexDigit (n : Nat) : Char :=
  if n < 10 then Char.ofNat (48 + n) else Char.ofNat (55 + n)

/-- Bytes `urllib.parse.quote` leaves unescaped with the default
`safe='/'`: ASCII alphanumerics, `_.-~` and `/`. -/
def quoteSafeByte (b : Nat) : Bool :=
  (48 ≤ b && b ≤ 57) || (65 ≤ b && b ≤ 90) || (97 ≤ b && b ≤ 122) ||
    b == 95 || b == 46 || b == 45 || b == 126 || b == 47

/-- `urllib.parse.quote(s)` with the default `safe='/'`. -/
def urlQuote (s : String) : String :=
  String.mk ((s.data.flatMap utf8Bytes).flatMap fun b =>
    if quoteSafeByte b then [Char.ofNat b] else ['%', hexDigit (b / 16), hexDigit (b % 16)])

/-- `canonical_page_url` from the script: spaces become underscores, then the
title is percent-encoded under the wiki's article path. -/
def canonical_page_url (title : String) : String :=
  WIKI_BASE ++ "/wiki/" ++ urlQuote (String.mk (title.data.map fun c => if c = ' ' then '_' else c))

/-- `normalize_category_name`: underscores to spaces, then strip. -/
def normalize_category_name (cat : String) : String :=
  pyStrip (String.mk (cat.data.map fun c => if c = '_' then ' ' else c))

/-! ## Category traversal (`discover_item_pages`)

The MediaWiki `categorymembers` responses are modelled as a finite category
graph: an association list from category title to the full (pagination
already aggregated, as `iter_category_members` does) list of members, each
carrying the namespace tag `ns` and a `title`. A category absent from the
list has no members. -/

/-- One entry of a `categorymembers` response. -/
structure Member where
  ns : Int
  title : String
deriving DecidableEq

/-- The remote category graph: category title ↦ member list. -/
abbrev Graph := List (String × List Member)

/-- Member list of a category (first entry wins, none means no members). -/
def Graph.members : Graph → String → List Member
  | [], _ => []
  | e :: g, c => if e.1 = c then e.2 else Graph.members g c

/-- Python `set.add` on a list kept duplicate-free. -/
def setAdd (t : String) (s : List String) : List String :=
  if t ∈ s then s else t :: s

/-- The member loop body of `discover_item_pages`: skip falsy titles, append
`ns == 14` (Category) titles to the queue, add `ns == 0` (main) titles to the
page set, ignore every other namespace. -/
def processMembers : List Member → List String → List String → List String × List String
  | [], queue, pages => (queue, pages)
  | m :: ms, queue, pages =>
    if m.title = "" then processMembers ms queue pages
    else if m.ns = 14 then processMembers ms (queue ++ [m.title]) pages
    else if m.ns = 0 then processMembers ms queue (setAdd m.title pages)
    else processMembers ms queue pages

/-- State of the traversal loop: the FIFO work queue, the visited-category
set, the collected page-title set, and (for specification purposes) the
sequence of categories whose members have been enumerated, in order. -/
structure DState where
  queue : List String
  seen : List String
  pages : List String
  visits : List String
deriving DecidableEq

/-- The `while queue:` loop of `discover_item_pages`, with explicit fuel:
pop the queue front, skip it if already visited, otherwise mark it visited
and enumerate its members. -/
def discoverLoop (g : Graph) : Nat → DState → DState
  | 0, st => st
  | fuel + 1, st =>
    match st.queue with
    | [] => st
    | cat :: rest =>
      if cat ∈ st.seen then
        discoverLoop g fuel ⟨rest, st.seen, st.pages, st.visits⟩
      else
        let qp := processMembers (g.members cat) rest st.pages
        discoverLoop g fuel ⟨qp.1, cat :: st.seen, qp.2, st.visits ++ [cat]⟩

/-- Members of `ms` the loop appends to the queue, in order. -/
def catTitles (ms : List Member) : List String :=
  (ms.filter fun m => !(m.title == "") && m.ns == 14).map Member.title

/-- Members of `ms` the loop adds to the page set, in order. -/
def pageTitles (ms : List Member) : List String :=
  (ms.filter fun m => !(m.title == "") && !(m.ns == 14) && m.ns == 0).map Member.title

/-- All category titles the traversal can ever enqueue: the root plus every
category-namespace member title in the graph. -/
def catUniverse (g : Graph) : List String :=
  "Category:Items" :: g.flatMap fun e => catTitles e.2

/-- Total number of members across the graph, a bound on how much one visit
can grow the queue. -/
def totalMembers (g : Graph) : Nat := (g.map fun e => e.2.length).sum

/-- Fuel sufficient to drain the queue (proved below): each loop iteration
strictly decreases `unvisited * (totalMembers + 1) + queue length`. -/
def discoverFuel (g : Graph) : Nat :=
  (catUniverse g).length * (totalMembers g + 1) + 1

/-- Initial loop state: the queue seeded with the root category. -/
def initState : DState := ⟨["Category:Items"], [], [], []⟩

/-- `discover_item_pages` from the script: run the traversal to completion
and return the sorted page-title set. -/
def discover_item_pages (g : Graph) : List String :=
  List.insertionSort (· ≤ ·) (discoverLoop g (discoverFuel g) initState).pages

/-! ## HTML fragments

The rendered page HTML is modelled as the parsed tree BeautifulSoup exposes:
a node is either a text node (`NavigableString`) or an element with a tag
name, attributes and children. A document is a forest of root nodes. -/

/-- A BeautifulSoup node. -/
inductive HNode where
  | text (s : String)
  | elem (tag : String) (attrs : List (String × String)) (children : List HNode)

/-- Direct children (`node.children`, empty for text nodes). -/
def HNode.childNodes : HNode → List HNode
  | .text _ => []
  | .elem _ _ cs => cs

/-- Whether the node is an element with the given tag (`node.name == t`). -/
def HNode.isTag : HNode → String → Bool
  | .text _, _ => false
  | .elem tag _ _, t => tag == t

/-- Attribute lookup, `node.get(key)`. -/
def HNode.attr : HNode → String → Option String
  | .text _, _ => none
  | .elem _ attrs _, key => (attrs.find? fun p => p.1 == key).map Prod.snd

mutual

/-- Descendant-or-self `NavigableString` contents of a node, document order. -/
def nodeStrings : HNode → List String
  | .text s => [s]
  | .elem _ _ cs => forestStrings cs

/-- All descendant `NavigableString` contents of a forest, document order. -/
def forestStrings : List HNode → List String
  | [] => []
  | n :: ns => nodeStrings n ++ forestStrings ns

end

/-- `node.get_text(" ", strip=True)`: strip each descendant string, drop the
empty ones, and join the rest with single spaces. -/
def HNode.getTextStrip (n : HNode) : String :=
  joinWithSpace (((forestStrings n.childNodes).map pyStrip).filter fun s => !(s == ""))

mutual

/-- The node itself (when an element) followed by its descendant elements. -/
def nodeElems : HNode → List HNode
  | .text _ => []
  | .elem t a cs => .elem t a cs :: forestElems cs

/-- All element nodes of a forest in document order (each element precedes
its descendants); this is the candidate order of `find` / `select`. -/
def forestElems : List HNode → List HNode
  | [] => []
  | n :: ns => nodeElems n ++ forestElems ns

end

/-- `soup.select_one("table.wikitable")`: the first element in document order
whose tag is `table` and whose `class` attribute contains the word
`wikitable` (BeautifulSoup splits `class` on whitespace). -/
def selectWikitable (doc : List HNode) : Option HNode :=
  (forestElems doc).find? fun n =>
    n.isTag "table" &&
      match n.attr "class" with
      | none => false
      | some v => (pyWords v.data).contains "wikitable".data

mutual

/-- Matches of `tbody tr + tr` inside one node's subtree. -/
def trAfterTrNode (inTbody : Bool) : HNode → List HNode
  | .text _ => []
  | .elem t _ cs => trAfterTr (inTbody || t == "tbody") false cs

/-- `table.select_one("tbody tr + tr")`: the `tr` elements in document order
that lie under a `tbody` and whose immediately preceding element sibling is
also a `tr` (text between siblings is ignored, as in CSS `+`). -/
def trAfterTr (inTbody : Bool) (prevIsTr : Bool) : List HNode → List HNode
  | [] => []
  | n :: ns =>
    match n with
    | .text _ => trAfterTr inTbody prevIsTr ns
    | .elem t _ _ =>
      (if inTbody && prevIsTr && t == "tr" then [n] else []) ++
        trAfterTrNode inTbody n ++ trAfterTr inTbody (t == "tr") ns

end

/-- `table.select("tr")`: all `tr` descendants in document order. -/
def selectTrs (table : HNode) : List HNode :=
  (forestElems table.childNodes).filter fun n => n.isTag "tr"

/-- The data-row selection of `parse_item_page`: `tbody tr + tr` first, with
a fallback to the second of all `tr` descendants. -/
def selectDataRow (table : HNode) : Option HNode :=
  match (trAfterTr false false table.childNodes).head? with
  | some row => some row
  | none => (selectTrs table)[1]?

/-- `row.find_all(["td", "th"], recursive=False)`: direct element children
tagged `td` or `th`. -/
def rowCells (row : HNode) : List HNode :=
  row.childNodes.filter fun n => n.isTag "td" || n.isTag "th"

/-- `cell.select_one("img")`: first `img` descendant. -/
def selectImg (cell : HNode) : Option HNode :=
  (forestElems cell.childNodes).find? fun n => n.isTag "img"

/-- `cell.select("img")`: all `img` descendants in document order. -/
def selectImgs (cell : HNode) : List HNode :=
  (forestElems cell.childNodes).filter fun n => n.isTag "img"

/-- `cell.find("ul")`: first `ul` descendant in document order. -/
def findUl (cell : HNode) : Option HNode :=
  (forestElems cell.childNodes).find? fun n => n.isTag "ul"

/-- `ul.find_all("li")`: all `li` descendants in document order. -/
def findLis (ul : HNode) : List HNode :=
  (forestElems ul.childNodes).filter fun n => n.isTag "li"

mutual

/-- Matches of `p i` inside one node's subtree. -/
def pInNode (inP : Bool) : HNode → List HNode
  | .text _ => []
  | .elem t _ cs => pIn (inP || t == "p") cs

/-- `cell.select("p i")`: `i` elements among the cell's descendants having a
`p` ancestor below the cell, in document order. -/
def pIn (inP : Bool) : List HNode → List HNode
  | [] => []
  | n :: ns =>
    match n with
    | .text _ => pIn inP ns
    | .elem t _ _ =>
      (if inP && t == "i" then [n] else []) ++ pInNode inP n ++ pIn inP ns

end

/-- `cell.select("p i")` with the cell itself as root. -/
def selectPI (cell : HNode) : List HNode := pIn false cell.childNodes

/-! ## Cost-cell parsing (`parse_cost_cell`) -/

/-- `ParsedCost` from the script. -/
structure ParsedCost where
  amount : Option Nat
  currency : Option String
deriving DecidableEq

/-- `_CURRENCY_HINTS` from the script, in source order. -/
def CURRENCY_HINTS : List (String × String) :=
  [("bloodpoints", "bloodpoints"), ("bp", "bloodpoints"),
   ("iridescent shards", "iridescent_shards"), ("shards", "iridescent_shards"),
   ("auric cells", "auric_cells"), ("cells", "auric_cells")]

/-- The lowercased `f"{alt} {src}"` blob built for one image. -/
def imgBlob (img : HNode) : String :=
  asciiLower ((img.attr "alt").getD "") ++ " " ++ asciiLower ((img.attr "src").getD "")

/-- The image loop of `parse_cost_cell`: for each `img` in document order,
build the lowercased `alt src` blob and stop at the first image matching a
hint, checking "bloodpoints", then "shards", then "auric"/"cells". -/
def imgCurrencyLoop : List HNode → Option String
  | [] => none
  | img :: rest =>
    if strContains "bloodpoints" (imgBlob img) then some "bloodpoints"
    else if strContains "shards" (imgBlob img) then some "iridescent_shards"
    else if strContains "auric" (imgBlob img) || strContains "cells" (imgBlob img) then
      some "auric_cells"
    else imgCurrencyLoop rest

/-- The text-fallback loop of `parse_cost_cell` over `_CURRENCY_HINTS`. -/
def textCurrencyLoop (lower : String) : List (String × String) → Option String
  | [] => none
  | (needle, mapped) :: hints =>
    if strContains needle lower then some mapped else textCurrencyLoop lower hints

/-- `re.search(r"(\d[\d,]*)", text)`: the first maximal run starting with a
digit and continuing with digits or commas. -/
def firstDigitRun : List Char → Option (List Char)
  | [] => none
  | c :: cs =>
    if c.isDigit then some (c :: cs.takeWhile fun d => d.isDigit || d == ',')
    else firstDigitRun cs

/-- `int(m.group(1).replace(",", ""))`: strip commas, read the digits. -/
def digitsToNat (l : List Char) : Nat :=
  (l.filter fun c => !(c == ',')).foldl (fun acc c => acc * 10 + (c.toNat - 48)) 0

/-- `parse_cost_cell` from the script. -/
def parse_cost_cell (td : Option HNode) : ParsedCost :=
  match td with
  | none => ⟨none, none⟩
  | some cell =>
    let text := pyJoinSplit cell.getTextStrip
    let currency :=
      match imgCurrencyLoop (selectImgs cell) with
      | some c => some c
      | none => textCurrencyLoop (asciiLower text) CURRENCY_HINTS
    let amount := (firstDigitRun text.data).map digitsToNat
    ⟨amount, currency⟩

/-! ## Description-cell parsing (`extract_description_parts`) -/

/-- The text taken from one direct child in the summary loop: elements (and
`NavigableString`s, which also expose `get_text`) yield their stripped
joined text; for a bare string both Python branches reduce to `str.strip`. -/
def nodeText (n : HNode) : String :=
  match n with
  | .text s => pyStrip s
  | .elem _ _ _ => n.getTextStrip

/-- The summary loop of `extract_description_parts`: walk the cell's direct
children, stop at the first child named `ul`, keep each cleaned non-empty
text. -/
def summaryPartsLoop : List HNode → List String
  | [] => []
  | n :: ns =>
    if n.isTag "ul" then []
    else
      match clean_text (some (nodeText n)) with
      | some t => t :: summaryPartsLoop ns
      | none => summaryPartsLoop ns

/-- The effects loop: cleaned non-empty text of each `li`, in order. -/
def liTextsLoop : List HNode → List String
  | [] => []
  | li :: rest =>
    match clean_text (some li.getTextStrip) with
    | some t => t :: liTextsLoop rest
    | none => liTextsLoop rest

/-- The flavor loop: first `p i` element whose cleaned text is non-empty and
contains a double quote; its stripped text is kept. -/
def flavorLoop : List HNode → Option String
  | [] => none
  | ital :: rest =>
    match clean_text (some ital.getTextStrip) with
    | some t => if strContains "\"" t then some (pyStrip t) else flavorLoop rest
    | none => flavorLoop rest

/-- The structured description record built by `extract_description_parts`. -/
structure Description where
  summary : Option String
  effects : List String
  flavor_text : Option String
  raw_text : Option String
deriving DecidableEq

/-- `extract_description_parts` from the script. -/
def extract_description_parts : Option HNode → Description
  | none => ⟨none, [], none, none⟩
  | some cell =>
    let ul := findUl cell
    let summary_parts :=
      match ul with
      | none => []
      | some _ => summaryPartsLoop cell.childNodes
    let effects :=
      match ul with
      | none => []
      | some u => liTextsLoop (findLis u)
    let flavor := flavorLoop (selectPI cell)
    ⟨clean_text (some (joinWithSpace summary_parts)), effects,
      clean_text flavor, clean_text (some cell.getTextStrip)⟩

/-! ## Page parsing (`parse_item_page`) -/

/-- The rarity loop of `parse_item_page`: first category whose lowercase
form ends in `" items"` and is not exactly `"items"`, with the suffix cut
off and the remainder stripped. -/
def deriveRarity : List String → Option String
  | [] => none
  | c :: cs =>
    if strEndsWith " items" (asciiLower c) && !(asciiLower c == "items") then
      some (pyStrip (String.mk (c.data.take (c.data.length - 6))))
    else deriveRarity cs

/-- The `parse` member of a successful render response: the rendered HTML
fragment (`text["*"]`, already parsed into a forest) and the raw category
names (`categories[i]["*"]`; a missing or empty value is modelled as `""`,
both being falsy in the comprehension's filter). -/
structure ParsePayload where
  text : List HNode
  categories : List String

/-- A decoded render-API response; `parse = none` models a response without
a parse result. -/
structure RenderResponse where
  parse : Option ParsePayload

/-- `FetchError` from the script. -/
structure FetchError where
  msg : String
deriving DecidableEq

/-- The category cleanup in `parse_item_page`: keep truthy raw names,
normalise them, and drop maintenance categories (`pages using ...`). -/
def filteredCats (raw : List String) : List String :=
  ((raw.filter fun c => !(c == "")).map normalize_category_name).filter
    fun c => !(strStartsWith "pages using " (asciiLower c))

/-- One output record of `parse_item_page`. -/
structure ItemRecord where
  title : String
  wiki_url : String
  rarity : Option String
  icon_url : Option String
  cost : ParsedCost
  description : Description
  categories : List String
deriving DecidableEq

/-- `parse_item_page` from the script. A missing parse result raises
`FetchError`; otherwise the first wikitable's first data row feeds the three
positional cells (icon / description / cost). Python initialises each field
to its absent value and overwrites it only when the corresponding cell
exists, which coincides with feeding the optional cell lookups directly to
the extractors (both yield the absent value on `none`). -/
def parse_item_page (title : String) (resp : RenderResponse) : Except FetchError ItemRecord :=
  match resp.parse with
  | none => .error ⟨"Missing parse output for page: " ++ title⟩
  | some parse =>
    let cats := filteredCats parse.categories
    let idc : Option String × Description × ParsedCost :=
      match selectWikitable parse.text with
      | none => (none, ⟨none, [], none, none⟩, ⟨none, none⟩)
      | some table =>
        match selectDataRow table with
        | none => (none, ⟨none, [], none, none⟩, ⟨none, none⟩)
        | some row =>
          let cells := rowCells row
          let icon :=
            match cells[0]? with
            | none => none
            | some c0 => (selectImg c0).map fun img => join_url ((img.attr "src").getD "")
          (icon, extract_description_parts cells[1]?, parse_cost_cell cells[2]?)
    .ok ⟨title, canonical_page_url title, deriveRarity cats, idc.1, idc.2.2, idc.2.1, cats⟩

/-- The icon/description/cost triple of `parse_item_page`, as a standalone
function of the payload (definitionally the inline `idc` computation). -/
def pipIdc (p : ParsePayload) : Option String × Description × ParsedCost :=
  match selectWikitable p.text with
  | none => (none, ⟨none, [], none, none⟩, ⟨none, none⟩)
  | some table =>
    match selectDataRow table with
    | none => (none, ⟨none, [], none, none⟩, ⟨none, none⟩)
    | some row =>
      let cells := rowCells row
      let icon :=
        match cells[0]? with
        | none => none
        | some c0 => (selectImg c0).map fun img => join_url ((img.attr "src").getD "")
      (icon, extract_description_parts cells[1]?, parse_cost_cell cells[2]?)

/-! ## The run loop of `main` -/

/-- One entry of the `errors` array. -/
structure ErrorRecord where
  title : String
  error : String
deriving DecidableEq

/-- The per-title loop of `main`: parse each discovered title, collecting
successes into `items` and failures into `errors`, in input order. -/
def runScrape (fetch : String → RenderResponse) : List String → List ItemRecord × List ErrorRecord
  | [] => ([], [])
  | t :: ts =>
    let rest := runScrape fetch ts
    match parse_item_page t (fetch t) with
    | .ok item => (item :: rest.1, rest.2)
    | .error e => (rest.1, ⟨t, e.msg⟩ :: rest.2)

/-! ## Specification-side definitions

The following definitions restate, in the spec's own terms, what the claims
assert; the claim theorems below compare them with the embedded code. -/

/-- Spec C6: "remove any space immediately preceding one of `,.;:!?%`",
read off pairwise (on a collapsed string every space is a single `' '`). -/
def specRmSpace : List Char → List Char
  | [] => []
  | [c] => [c]
  | c :: d :: rest =>
    if c == ' ' && isPunctAfterSpace d then specRmSpace (d :: rest)
    else c :: specRmSpace (d :: rest)

/-- Spec C6: "collapse runs of whitespace to a single space, trim
leading/trailing space, then remove any space immediately preceding
punctuation; an empty result is absent": the words of the string joined by
single spaces, then the punctuation fix. -/
def specNormalize (s : String) : Option String :=
  let t := specRmSpace (joinSpaces (pyWords s.data))
  if t = [] then none else some (String.mk t)

/-- Spec C2: category `b` is listed as a category-namespace member of `a`. -/
def catEdge (g : Graph) (a b : String) : Prop := b ∈ catTitles (g.members a)

/-- Spec C1/C2: category reachable from the root transitively. -/
def ReachableCat (g : Graph) (c : String) : Prop :=
  Relation.ReflTransGen (catEdge g) "Category:Items" c

/-- Spec C2: a main-namespace title reachable from the root. -/
def reachablePage (g : Graph) (t : String) : Prop :=
  ∃ c, ReachableCat g c ∧ t ∈ pageTitles (g.members c)

/-- Whether a forest contains a `ul` element. -/
def forestHasUl (l : List HNode) : Bool :=
  (forestElems l).any fun n => n.isTag "ul"

mutual

/-- Spec C4: locate the first bulleted list of a forest in document order,
returning it with the sibling content appearing before it in its own
parent; `acc` accumulates (reversed) the siblings already passed at the
current level and is discarded on descending into a child. -/
def findUlCtxAux (acc : List HNode) : List HNode → Option (List HNode × HNode)
  | [] => none
  | n :: ns =>
    match n with
    | .text _ => findUlCtxAux (n :: acc) ns
    | .elem t _ cs =>
      if t == "ul" then some (acc.reverse, n)
      else if forestHasUl cs then findUlCtxNode n
      else findUlCtxAux (n :: acc) ns

/-- Descend into a node when the first list lies inside it. -/
def findUlCtxNode : HNode → Option (List HNode × HNode)
  | .text _ => none
  | .elem _ _ cs => findUlCtxAux [] cs

end

/-- Spec C4: the first bulleted list with its preceding siblings. -/
def findUlCtx (l : List HNode) : Option (List HNode × HNode) := findUlCtxAux [] l

/-- Spec C4: "all sibling content appearing before that list, concatenated
and whitespace-normalized, kept as summary". -/
def claimSummary (cell : HNode) : Option String :=
  match findUlCtx cell.childNodes with
  | none => none
  | some pu =>
    clean_text (some (joinWithSpace
      (pu.1.filterMap fun n => clean_text (some (nodeText n)))))

/-- Spec C4: "the whitespace-normalized text of each of the cell's list
items, one entry per item, in document order" (normalising to empty yields
no entry). -/
def claimEffects (cell : HNode) : List String :=
  liTextsLoop ((forestElems cell.childNodes).filter fun n => n.isTag "li")

/-- Spec C7: the first element of `pis` whose normalised text is non-empty
and contains a literal quotation mark, keeping that text. -/
def flavorPick (pis : List HNode) : Option String :=
  (pis.filterMap fun ital =>
    match clean_text (some ital.getTextStrip) with
    | some t => if strContains "\"" t then some t else none
    | none => none).head?

/-- Spec C7: "the first italic element nested inside a paragraph element, in
document order, whose text contains a literal quotation mark". -/
def claimFlavor (cell : HNode) : Option String := flavorPick (selectPI cell)

/-- Spec C7: "the entire cell's text, whitespace-normalized": the raw
descendant strings joined by the separator and normalised in one pass. -/
def claimRaw (cell : HNode) : Option String :=
  specNormalize (joinWithSpace (forestStrings cell.childNodes))

/-- Spec C5: the image hints in priority order (bloodpoints, then shards,
then auric or cells). -/
def IMG_HINTS : List (String × String) :=
  [("bloodpoints", "bloodpoints"), ("shards", "iridescent_shards"),
   ("auric", "auric_cells"), ("cells", "auric_cells")]

/-- Spec C5: first hint matching a blob, in priority order. -/
def specImgHint (blob : String) : Option String :=
  (IMG_HINTS.find? fun h => strContains h.1 blob).map Prod.snd

/-- Spec C5: currency of a cost cell — the first image whose blob matches a
hint, else the first text hint found in the lowercased visible text. -/
def claimCurrency (cell : HNode) : Option String :=
  match ((selectImgs cell).filterMap fun img => specImgHint (imgBlob img)).head? with
  | some c => some c
  | none =>
    (CURRENCY_HINTS.find? fun h =>
      strContains h.1 (asciiLower (pyJoinSplit cell.getTextStrip))).map Prod.snd

/-- Spec C5: the first digit run (with comma separators) of the visible
text, commas stripped. -/
def claimAmount (cell : HNode) : Option Nat :=
  (firstDigitRun (pyJoinSplit cell.getTextStrip).data).map digitsToNat

/-- Spec C8: first category ending in `" Items"` (case-insensitively) that
is not exactly `"Items"`, with the suffix stripped. -/
def claimRarity (cats : List String) : Option String :=
  (cats.find? fun c => strEndsWith " items" (asciiLower c) && !(asciiLower c == "items")).map
    fun c => pyStrip (String.mk (c.data.take (c.data.length - 6)))

/-! ## Concrete inputs for witnesses and counterexamples -/

/-- A cyclic category graph: the root and `Category:Sub` list each other,
and `ItemA` is reachable through both categories. -/
def gCyc : Graph :=
  [("Category:Items", [⟨14, "Category:Sub"⟩, ⟨0, "ItemB"⟩, ⟨0, "ItemA"⟩]),
   ("Category:Sub", [⟨14, "Category:Items"⟩, ⟨0, "ItemA"⟩])]

/-- `gCyc` with each member list reordered. -/
def gCycPerm : Graph :=
  [("Category:Items", [⟨0, "ItemA"⟩, ⟨0, "ItemB"⟩, ⟨14, "Category:Sub"⟩]),
   ("Category:Sub", [⟨0, "ItemA"⟩, ⟨14, "Category:Items"⟩])]

/-- A render payload whose HTML holds no `table.wikitable`. -/
def noTablePayload : ParsePayload :=
  ⟨[HNode.elem "div" [] [HNode.text "no table here"]],
   ["Items", "Very_Rare_Items", "Pages_using_DynamicPageList3"]⟩

/-- The spec's description example: prose, a two-item list, and an
italicised flavor quote inside a paragraph. -/
def descCellGood : HNode :=
  HNode.elem "td" []
    [HNode.text "Boosts your luck.",
     HNode.elem "ul" []
       [HNode.elem "li" [] [HNode.text "Slightly increases Luck."],
        HNode.elem "li" [] [HNode.text "Stacks with other Luck bonuses."]],
     HNode.elem "p" []
       [HNode.elem "i" [] [HNode.text "\"Fortune favors the bold.\""]]]

/-- A description cell whose first bulleted list is nested inside a `div`
and which carries a second, direct-child list. -/
def descCellNested : HNode :=
  HNode.elem "td" []
    [HNode.text "Intro",
     HNode.elem "div" []
       [HNode.elem "ul" [] [HNode.elem "li" [] [HNode.text "E1"]]],
     HNode.text "Mid",
     HNode.elem "ul" [] [HNode.elem "li" [] [HNode.text "E2"]]]

/-- A description cell with no text at all. -/
def emptyCell : HNode := HNode.elem "td" [] []

/-- The spec's cost example with no currency hint. -/
def costCellPlain : HNode := HNode.elem "td" [] [HNode.text "Cost: 6,000"]

/-- The spec's cost example with a bloodpoints icon. -/
def costCellBp : HNode :=
  HNode.elem "td" []
    [HNode.elem "img" [("alt", "Bloodpoints icon")] [], HNode.text "5,500"]

/-- The icon image of `pageNoSrc`, carrying no `src` attribute. -/
def noSrcImg : HNode := HNode.elem "img" [("alt", "icon")] []

/-- The icon cell of `pageNoSrc`. -/
def noSrcCell : HNode := HNode.elem "td" [] [noSrcImg]

/-- The data row of `pageNoSrc`. -/
def noSrcRow : HNode :=
  HNode.elem "tr" []
    [noSrcCell, HNode.elem "td" [] [HNode.text "Does things."],
     HNode.elem "td" [] [HNode.text "4,000"]]

/-- The primary table of `pageNoSrc`. -/
def noSrcTable : HNode :=
  HNode.elem "table" [("class", "wikitable")]
    [HNode.elem "tbody" []
      [HNode.elem "tr" [] [HNode.elem "th" [] [HNode.text "Icon"]], noSrcRow]]

/-- A page whose icon image carries no `src` attribute. -/
def pageNoSrc : ParsePayload := ⟨[noSrcTable], ["Items"]⟩

/-! ## Support definitions for the traversal proofs -/

/-- Categories of `U` not yet visited. -/
def unseenCount (U seen : List String) : Nat :=
  (U.filter fun x => !(seen.contains x)).length

/-- Loop measure: every iteration strictly decreases it. -/
def dMeasure (g : Graph) (st : DState) : Nat :=
  unseenCount (catUniverse g) st.seen * (totalMembers g + 1) + st.queue.length

/-- The loop invariant of `discover_item_pages`. -/
structure DInv (g : Graph) (st : DState) : Prop where
  seenReach : ∀ c ∈ st.seen, ReachableCat g c
  queueReach : ∀ c ∈ st.queue, ReachableCat g c
  rootDone : "Category:Items" ∈ st.seen ∨ "Category:Items" ∈ st.queue
  closed : ∀ a ∈ st.seen, ∀ b, catEdge g a b → b ∈ st.seen ∨ b ∈ st.queue
  pagesChar : ∀ t, t ∈ st.pages ↔ ∃ c, c ∈ st.seen ∧ t ∈ pageTitles (g.members c)
  pagesNodup : st.pages.Nodup
  visitsNodup : st.visits.Nodup
  visitsSeen : ∀ c ∈ st.visits, c ∈ st.seen

/-! # Theorems

## Whitespace normalisation -/

theorem pyWordsAux_nil (cur : List Char) :
    pyWordsAux cur [] = if cur.isEmpty then [] else [cur.reverse] := rfl

theorem pyWordsAux_allspace :
    ∀ (z : List Char) (cur : List Char), (∀ c ∈ z, isPySpace c = true) →
      pyWordsAux cur z = if cur.isEmpty then [] else [cur.reverse]
  | [], _, _ => rfl
  | c :: z, cur, h => by
    have hc : isPySpace c = true := h c (List.mem_cons_self c z)
    have ih := pyWordsAux_allspace z [] fun d hd => h d (List.mem_cons_of_mem c hd)
    simp only [pyWordsAux, hc, if_true]
    by_cases hcur : cur.isEmpty
    · simp [hcur, ih]
    · simp [hcur, ih]

theorem pyWordsAux_append_space (y : List Char) :
    ∀ (x cur : List Char), pyWordsAux cur (x ++ ' ' :: y) = pyWordsAux cur x ++ pyWordsAux [] y
  | [], cur => by
    have hsp : isPySpace ' ' = true := by decide
    simp only [List.nil_append, pyWordsAux, hsp, if_true]
    by_cases hcur : cur.isEmpty
    · simp [hcur]
    · simp [hcur]
  | c :: x, cur => by
    have ih : ∀ cur', pyWordsAux cur' (x ++ ' ' :: y) = pyWordsAux cur' x ++ pyWordsAux [] y :=
      fun cur' => pyWordsAux_append_space y x cur'
    by_cases hc : isPySpace c <;> by_cases hcur : cur.isEmpty <;>
      simp [pyWordsAux, hc, hcur, ih]

theorem pyWordsAux_append_allspace :
    ∀ (x cur z : List Char), (∀ c ∈ z, isPySpace c = true) →
      pyWordsAux cur (x ++ z) = pyWordsAux cur x
  | [], cur, z, h => by
    simp only [List.nil_append, pyWordsAux_allspace z cur h, pyWordsAux_nil]
  | c :: x, cur, z, h => by
    have ih : ∀ cur', pyWordsAux cur' (x ++ z) = pyWordsAux cur' x :=
      fun cur' => pyWordsAux_append_allspace x cur' z h
    by_cases hc : isPySpace c <;> by_cases hcur : cur.isEmpty <;>
      simp [pyWordsAux, hc, hcur, ih]

theorem pyWordsAux_dropWhile_space :
    ∀ l : List Char, pyWordsAux [] (l.dropWhile isPySpace) = pyWordsAux [] l
  | [] => rfl
  | c :: l => by
    by_cases hc : isPySpace c
    · rw [List.dropWhile_cons_of_pos hc, pyWordsAux_dropWhile_space l]
      simp [pyWordsAux, hc]
    · rw [List.dropWhile_cons_of_neg hc]

theorem pyWords_stripChars (l : List Char) : pyWords (pyStripChars l) = pyWords l := by
  unfold pyWords pyStripChars
  have h1 : ∀ m : List Char, pyWordsAux [] ((m.reverse.dropWhile isPySpace).reverse) =
      pyWordsAux [] m := by
    intro m
    have hdec : m = (m.reverse.dropWhile isPySpace).reverse ++
        (m.reverse.takeWhile isPySpace).reverse := by
      conv_lhs => rw [← m.reverse_reverse]
      rw [← List.reverse_append, List.takeWhile_append_dropWhile]
    have hsp : ∀ c ∈ (m.reverse.takeWhile isPySpace).reverse, isPySpace c = true := by
      intro c hc
      exact List.mem_takeWhile_imp (List.mem_reverse.mp hc)
    conv_rhs => rw [hdec]
    rw [pyWordsAux_append_allspace _ [] _ hsp]
  rw [h1, pyWordsAux_dropWhile_space]

theorem pyWordsAux_peel :
    ∀ (l cur : List Char), cur ≠ [] →
      pyWordsAux cur l = (cur.reverse ++ l.takeWhile fun d => !isPySpace d) ::
        pyWordsAux [] (l.dropWhile fun d => !isPySpace d)
  | [], cur, h => by
    simp [pyWordsAux, List.isEmpty_iff, h]
  | c :: l, cur, h => by
    by_cases hc : isPySpace c
    · have : (!isPySpace c) = false := by simp [hc]
      rw [List.takeWhile_cons_of_neg (by simp [hc]), List.dropWhile_cons_of_neg (by simp [hc])]
      simp only [pyWordsAux, hc, if_true, List.isEmpty_iff, h, if_neg h, List.append_nil]
      simp [List.isEmpty_eq_true, h]
    · rw [List.takeWhile_cons_of_pos (by simp [hc]), List.dropWhile_cons_of_pos (by simp [hc])]
      simp only [pyWordsAux, hc, if_false]
      rw [pyWordsAux_peel l (c :: cur) (by simp)]
      simp

theorem pyWords_word (w : List Char) (hne : w ≠ [])
    (hsp : ∀ c ∈ w, isPySpace c = false) : pyWords w = [w] := by
  cases w with
  | nil => exact absurd rfl hne
  | cons c w' =>
    have hc : isPySpace c = false := hsp c (List.mem_cons_self c w')
    unfold pyWords
    simp only [pyWordsAux, hc, if_false]
    rw [pyWordsAux_peel w' [c] (by simp)]
    have ht : w'.takeWhile (fun d => !isPySpace d) = w' := by
      rw [List.takeWhile_eq_self_iff]
      intro d hd
      simp [hsp d (List.mem_cons_of_mem c hd)]
    have hd : w'.dropWhile (fun d => !isPySpace d) = [] := by
      rw [List.dropWhile_eq_nil_iff]
      intro d hd
      simp [hsp d (List.mem_cons_of_mem c hd)]
    simp [ht, hd, pyWordsAux_nil]

theorem collapse_cons_space_false {c : Char} (l : List Char) (h : isPySpace c = true) :
    collapseWsAux false (c :: l) = ' ' :: collapseWsAux true l := by
  simp [collapseWsAux, h]

theorem collapse_cons_space_true {c : Char} (l : List Char) (h : isPySpace c = true) :
    collapseWsAux true (c :: l) = collapseWsAux true l := by
  simp [collapseWsAux, h]

theorem collapse_cons_nonspace {c : Char} (b : Bool) (l : List Char)
    (h : isPySpace c = false) : collapseWsAux b (c :: l) = c :: collapseWsAux false l := by
  simp [collapseWsAux, h]

theorem collapse_peel :
    ∀ l : List Char, collapseWsAux false l =
      (l.takeWhile fun d => !isPySpace d) ++
        collapseWsAux false (l.dropWhile fun d => !isPySpace d)
  | [] => rfl
  | c :: l => by
    by_cases hc : isPySpace c
    · rw [List.takeWhile_cons_of_neg (by simp [hc]), List.dropWhile_cons_of_neg (by simp [hc])]
      rfl
    · have hc' : isPySpace c = false := by simpa using hc
      rw [List.takeWhile_cons_of_pos (by simp [hc']), List.dropWhile_cons_of_pos (by simp [hc']),
        collapse_cons_nonspace false l hc', List.cons_append, ← collapse_peel l]

theorem collapse_true :
    ∀ l : List Char, collapseWsAux true l = collapseWsAux false (l.dropWhile isPySpace)
  | [] => rfl
  | c :: l => by
    by_cases hc : isPySpace c
    · rw [List.dropWhile_cons_of_pos hc, collapse_cons_space_true l hc]
      exact collapse_true l
    · have hc' : isPySpace c = false := by simpa using hc
      rw [List.dropWhile_cons_of_neg hc, collapse_cons_nonspace true l hc',
        collapse_cons_nonspace false l hc']

theorem collapse_false_ne_nil (c : Char) (l : List Char) :
    collapseWsAux false (c :: l) ≠ [] := by
  by_cases hc : isPySpace c <;> simp [collapseWsAux, hc]

theorem stripChars_cons_space {c : Char} (l : List Char) (h : isPySpace c = true) :
    pyStripChars (c :: l) = pyStripChars l := by
  simp [pyStripChars, List.dropWhile_cons_of_pos h]

theorem dropWhile_all_false {p : Char → Bool} :
    ∀ l : List Char, (∀ c ∈ l, p c = false) → l.dropWhile p = l
  | [], _ => rfl
  | c :: l, h => List.dropWhile_cons_of_neg (by simp [h c (List.mem_cons_self c l)])

theorem stripChars_nonspace (w : List Char) (hw : ∀ c ∈ w, isPySpace c = false) :
    pyStripChars w = w := by
  unfold pyStripChars
  rw [dropWhile_all_false w hw, dropWhile_all_false w.reverse
    (fun c hc => hw c (List.mem_reverse.mp hc)), List.reverse_reverse]

theorem dropWhile_head_false {p : Char → Bool} :
    ∀ (l : List Char) {x : Char} {xs : List Char}, l.dropWhile p = x :: xs → p x = false
  | [], _, _, h => by simp at h
  | c :: l, x, xs, h => by
    by_cases hc : p c
    · rw [List.dropWhile_cons_of_pos hc] at h
      exact dropWhile_head_false l h
    · rw [List.dropWhile_cons_of_neg hc] at h
      cases h
      simpa using hc

theorem dropWhile_ne_nil_of_mem {p : Char → Bool} {l : List Char} {x : Char}
    (hx : x ∈ l) (hpx : p x = false) : l.dropWhile p ≠ [] := by
  intro hnil
  have := List.dropWhile_eq_nil_iff.mp hnil x hx
  rw [hpx] at this
  exact Bool.false_ne_true this

theorem dropWhile_append_of_ne_nil {p : Char → Bool} :
    ∀ (l₁ l₂ : List Char), l₁.dropWhile p ≠ [] →
      (l₁ ++ l₂).dropWhile p = l₁.dropWhile p ++ l₂
  | [], _, h => absurd rfl h
  | c :: l₁, l₂, h => by
    by_cases hc : p c
    · rw [List.dropWhile_cons_of_pos hc] at h
      rw [List.cons_append, List.dropWhile_cons_of_pos hc, List.dropWhile_cons_of_pos hc]
      exact dropWhile_append_of_ne_nil l₁ l₂ h
    · rw [List.cons_append, List.dropWhile_cons_of_neg hc, List.dropWhile_cons_of_neg hc]
      rfl

theorem stripChars_word_sep (w X : List Char) (hne : w ≠ [])
    (hw : ∀ c ∈ w, isPySpace c = false) (hX : X.dropWhile isPySpace = X) :
    pyStripChars (w ++ ' ' :: X) =
      if X = [] then w else w ++ ' ' :: pyStripChars X := by
  have hwrev : ∀ c ∈ w.reverse, isPySpace c = false := fun c hc =>
    hw c (List.mem_reverse.mp hc)
  have hlstrip : (w ++ ' ' :: X).dropWhile isPySpace = w ++ ' ' :: X := by
    cases w with
    | nil => exact absurd rfl hne
    | cons a w' =>
      exact List.dropWhile_cons_of_neg (by simp [hw a (List.mem_cons_self a w')])
  unfold pyStripChars
  rw [hlstrip]
  cases hXc : X with
  | nil =>
    rw [if_pos rfl]
    have h2 : (w ++ [' ']).reverse = ' ' :: w.reverse := by
      rw [List.reverse_append]
      rfl
    rw [h2, List.dropWhile_cons_of_pos (show isPySpace ' ' = true by decide),
      dropWhile_all_false _ hwrev, List.reverse_reverse]
  | cons x X' =>
    rw [hXc] at hX
    have hxns : isPySpace x = false := dropWhile_head_false (x :: X') hX
    have hrev : (w ++ ' ' :: x :: X').reverse = (x :: X').reverse ++ ' ' :: w.reverse := by
      rw [List.reverse_append, List.reverse_cons, List.append_assoc]
      rfl
    have hrevne : (x :: X').reverse.dropWhile isPySpace ≠ [] :=
      dropWhile_ne_nil_of_mem (List.mem_reverse.mpr (List.mem_cons_self x X')) hxns
    rw [if_neg (List.cons_ne_nil x X'), hrev,
      dropWhile_append_of_ne_nil _ _ hrevne, List.reverse_append, hX,
      List.reverse_cons, List.reverse_reverse, List.append_assoc]
    rfl

theorem joinSpaces_cons (w v : List Char) (vs : List (List Char)) :
    joinSpaces (w :: v :: vs) = w ++ ' ' :: joinSpaces (v :: vs) := rfl

theorem pyWords_cons_space {c : Char} (cs : List Char) (h : isPySpace c = true) :
    pyWords (c :: cs) = pyWords cs := by
  simp [pyWords, pyWordsAux, h]

theorem pyWords_cons_nonspace {c : Char} (cs : List Char) (h : isPySpace c = false) :
    pyWords (c :: cs) =
      (c :: cs.takeWhile fun d => !isPySpace d) ::
        pyWords (cs.dropWhile fun d => !isPySpace d) := by
  unfold pyWords
  show pyWordsAux [] (c :: cs) = _
  have h1 : pyWordsAux [] (c :: cs) = pyWordsAux [c] cs := by simp [pyWordsAux, h]
  rw [h1, pyWordsAux_peel cs [c] (by simp)]
  rfl

theorem normEq : ∀ l : List Char, pyStripChars (collapseWs l) = joinSpaces (pyWords l)
  | [] => rfl
  | c :: cs => by
    have hrec : ∀ m : List Char, m.length < (c :: cs).length →
        pyStripChars (collapseWs m) = joinSpaces (pyWords m) :=
      fun m _ => normEq m
    by_cases hc : isPySpace c
    · have h1 : collapseWs (c :: cs) = ' ' :: collapseWsAux false (cs.dropWhile isPySpace) := by
        unfold collapseWs
        rw [collapse_cons_space_false cs hc, collapse_true cs]
      rw [h1, stripChars_cons_space _ (by decide), pyWords_cons_space cs hc]
      have h2 : pyWords cs = pyWords (cs.dropWhile isPySpace) := by
        unfold pyWords
        rw [pyWordsAux_dropWhile_space cs]
      rw [h2]
      exact hrec (cs.dropWhile isPySpace)
        (Nat.lt_succ_of_le (List.dropWhile_sublist _).length_le)
    · have hc' : isPySpace c = false := by simpa using hc
      have hw : ∀ x ∈ c :: cs.takeWhile fun d => !isPySpace d, isPySpace x = false := by
        intro x hx
        rcases List.mem_cons.mp hx with hx | hx
        · rwa [hx]
        · have := List.mem_takeWhile_imp hx
          simpa using this
      have hpeel : collapseWs (c :: cs) =
          (c :: cs.takeWhile fun d => !isPySpace d) ++
            collapseWsAux false (cs.dropWhile fun d => !isPySpace d) := by
        unfold collapseWs
        rw [collapse_peel (c :: cs), List.takeWhile_cons_of_pos (by simp [hc']),
          List.dropWhile_cons_of_pos (by simp [hc'])]
      rw [hpeel, pyWords_cons_nonspace cs hc']
      cases hd : cs.dropWhile (fun d => !isPySpace d) with
      | nil =>
        have hX : collapseWsAux false ([] : List Char) = [] := rfl
        rw [hX, List.append_nil, stripChars_nonspace _ hw]
        rfl
      | cons s d' =>
        have hs : isPySpace s = true := by
          have h := dropWhile_head_false cs hd
          simpa using h
        have h3 : collapseWsAux false (s :: d') =
            ' ' :: collapseWsAux false (d'.dropWhile isPySpace) := by
          rw [collapse_cons_space_false d' hs, collapse_true d']
        have hX : (collapseWsAux false (d'.dropWhile isPySpace)).dropWhile isPySpace =
            collapseWsAux false (d'.dropWhile isPySpace) := by
          cases hd0c : d'.dropWhile isPySpace with
          | nil => rfl
          | cons x r =>
            have hx : isPySpace x = false := dropWhile_head_false d' hd0c
            rw [collapse_cons_nonspace false r hx]
            exact List.dropWhile_cons_of_neg (by simp [hx])
        have h4 : pyWords (s :: d') = pyWords (d'.dropWhile isPySpace) := by
          rw [pyWords_cons_space d' hs]
          unfold pyWords
          exact (pyWordsAux_dropWhile_space d').symm
        have hlen : (d'.dropWhile isPySpace).length < (c :: cs).length := by
          have l1 : (d'.dropWhile isPySpace).length ≤ d'.length :=
            (List.dropWhile_sublist _).length_le
          have l2 : (s :: d').length ≤ cs.length := by
            rw [← hd]
            exact (List.dropWhile_sublist _).length_le
          simp only [List.length_cons] at l2 ⊢
          omega
        have hJ : pyStripChars (collapseWsAux false (d'.dropWhile isPySpace)) =
            joinSpaces (pyWords (d'.dropWhile isPySpace)) :=
          hrec (d'.dropWhile isPySpace) hlen
        rw [h3, h4, stripChars_word_sep _ _ (List.cons_ne_nil c _) hw hX]
        cases hd0c : d'.dropWhile isPySpace with
        | nil => rfl
        | cons x r =>
          rw [hd0c] at hJ
          have hx : isPySpace x = false := dropWhile_head_false d' hd0c
          rw [if_neg (collapse_false_ne_nil x r), hJ,
            pyWords_cons_nonspace r hx, joinSpaces_cons]
termination_by l => l.length
decreasing_by
  simp_wf
  assumption

theorem goodWords_pyWordsAux :
    ∀ (l cur : List Char), (∀ c ∈ cur, isPySpace c = false) →
      ∀ w ∈ pyWordsAux cur l, w ≠ [] ∧ ∀ c ∈ w, isPySpace c = false
  | [], cur, hcur, w, hw => by
    rw [pyWordsAux_nil] at hw
    by_cases hc : cur.isEmpty
    · simp [hc] at hw
    · rw [if_neg hc] at hw
      have hw' := List.mem_singleton.mp hw
      subst hw'
      constructor
      · simp [List.isEmpty_iff] at hc
        simp [hc]
      · intro c hc'
        exact hcur c (List.mem_reverse.mp hc')
  | c :: l, cur, hcur, w, hw => by
    by_cases hc : isPySpace c
    · rw [show pyWordsAux cur (c :: l) =
          if cur.isEmpty then pyWordsAux [] l else cur.reverse :: pyWordsAux [] l by
          simp [pyWordsAux, hc]] at hw
      by_cases hcur' : cur.isEmpty
      · rw [if_pos hcur'] at hw
        exact goodWords_pyWordsAux l [] (by simp) w hw
      · rw [if_neg hcur'] at hw
        rcases List.mem_cons.mp hw with hw | hw
        · subst hw
          constructor
          · simp [List.isEmpty_iff] at hcur'
            simp [hcur']
          · intro c hc'
            exact hcur c (List.mem_reverse.mp hc')
        · exact goodWords_pyWordsAux l [] (by simp) w hw
    · rw [show pyWordsAux cur (c :: l) = pyWordsAux (c :: cur) l by
          simp [pyWordsAux, hc]] at hw
      refine goodWords_pyWordsAux l (c :: cur) ?_ w hw
      intro d hd
      rcases List.mem_cons.mp hd with hd | hd
      · subst hd
        simpa using hc
      · exact hcur d hd

theorem goodWords_pyWords (l : List Char) : goodWords (pyWords l) := by
  intro w hw
  exact goodWords_pyWordsAux l [] (by simp) w hw

theorem rmSBP_cons_nonspace {a : Char} (z : List Char) (h : isPySpace a = false) :
    rmSpaceBeforePunct (a :: z) = a :: rmSpaceBeforePunct z := by
  simp [rmSpaceBeforePunct, h]

theorem rmSBP_append_word :
    ∀ (w y : List Char), (∀ c ∈ w, isPySpace c = false) →
      rmSpaceBeforePunct (w ++ y) = w ++ rmSpaceBeforePunct y
  | [], y, _ => rfl
  | a :: w, y, h => by
    rw [List.cons_append, rmSBP_cons_nonspace _ (h a (List.mem_cons_self a w)),
      rmSBP_append_word w y fun c hc => h c (List.mem_cons_of_mem a hc), List.cons_append]

theorem rmSBP_cons_space_of_punct {a p : Char} {z zs : List Char}
    (ha : isPySpace a = true) (hz : rmSpaceBeforePunct z = p :: zs)
    (hp : isPunctAfterSpace p = true) :
    rmSpaceBeforePunct (a :: z) = p :: zs := by
  simp [rmSpaceBeforePunct, ha, hz, hp]

theorem rmSBP_cons_space_of_not_punct {a p : Char} {z zs : List Char}
    (ha : isPySpace a = true) (hz : rmSpaceBeforePunct z = p :: zs)
    (hp : isPunctAfterSpace p = false) :
    rmSpaceBeforePunct (a :: z) = a :: p :: zs := by
  simp [rmSpaceBeforePunct, ha, hz, hp]

theorem space_ne_punct_beq {c : Char} (h : isPySpace c = false) : (c == ' ') = false := by
  by_cases hc : c = ' '
  · subst hc
    simp [isPySpace] at h
  · simpa using hc

theorem specRm_cons_nonspace {c : Char} (z : List Char) (h : isPySpace c = false) :
    specRmSpace (c :: z) = c :: specRmSpace z := by
  cases z with
  | nil => rfl
  | cons d r => simp [specRmSpace, space_ne_punct_beq h]

theorem specRm_append_word :
    ∀ (w y : List Char), (∀ c ∈ w, isPySpace c = false) →
      specRmSpace (w ++ y) = w ++ specRmSpace y
  | [], y, _ => rfl
  | a :: w, y, h => by
    rw [List.cons_append, specRm_cons_nonspace _ (h a (List.mem_cons_self a w)),
      specRm_append_word w y fun c hc => h c (List.mem_cons_of_mem a hc), List.cons_append]

theorem specRm_space_cons {d : Char} (r : List Char) :
    specRmSpace (' ' :: d :: r) =
      if isPunctAfterSpace d then specRmSpace (d :: r) else ' ' :: specRmSpace (d :: r) := by
  by_cases hd : isPunctAfterSpace d <;> simp [specRmSpace, hd]

theorem mergeWords_two_step (w w' : List Char) (ws : List (List Char)) :
    mergeWords (w :: w' :: ws) =
      match mergeWords (w' :: ws) with
      | [] => [w]
      | v :: vs => if isPunctAfterSpace v.headI then (w ++ v) :: vs else w :: v :: vs := rfl

theorem mergeWords_good :
    ∀ ws, goodWords ws → goodWords (mergeWords ws)
  | [], _ => by intro w hw; simp [mergeWords] at hw
  | [w], h => by
    intro v hv
    simp only [mergeWords, List.mem_singleton] at hv
    subst hv
    exact h _ (List.mem_singleton.mpr rfl)
  | w :: w' :: ws, h => by
    intro v hv
    have hgood' : goodWords (w' :: ws) := fun u hu => h u (List.mem_cons_of_mem w hu)
    have ihgood := mergeWords_good (w' :: ws) hgood'
    have hmw := mergeWords_two_step w w' ws
    cases hm : mergeWords (w' :: ws) with
    | nil =>
      rw [hm] at hmw
      rw [hmw] at hv
      have hv' := List.mem_singleton.mp hv
      subst hv'
      exact h _ (List.mem_cons_self _ _)
    | cons u us =>
      rw [hm] at hmw
      have hmw2 : mergeWords (w :: w' :: ws) =
          if isPunctAfterSpace u.headI then (w ++ u) :: us else w :: u :: us := by
        rw [hmw]
      rw [hmw2] at hv
      have hu : u ≠ [] ∧ ∀ c ∈ u, isPySpace c = false := by
        refine ihgood u ?_
        rw [hm]
        exact List.mem_cons_self u us
      by_cases hp : isPunctAfterSpace u.headI
      · rw [if_pos hp] at hv
        rcases List.mem_cons.mp hv with hv | hv
        · subst hv
          constructor
          · intro hcon
            exact hu.1 (List.append_eq_nil.mp hcon).2
          · intro c hc
            rcases List.mem_append.mp hc with hc | hc
            · exact (h w (List.mem_cons_self w _)).2 c hc
            · exact hu.2 c hc
        · refine ihgood v ?_
          rw [hm]
          exact List.mem_cons_of_mem u hv
      · rw [if_neg hp] at hv
        rcases List.mem_cons.mp hv with hv | hv
        · subst hv
          exact h _ (List.mem_cons_self _ _)
        · refine ihgood v ?_
          rw [hm]
          exact hv

theorem mergeWords_head :
    ∀ (w : List Char) (ws : List (List Char)), ∃ r vs, mergeWords (w :: ws) = (w ++ r) :: vs
  | w, [] => ⟨[], [], by simp [mergeWords]⟩
  | w, w' :: ws => by
    have hmw := mergeWords_two_step w w' ws
    cases hm : mergeWords (w' :: ws) with
    | nil =>
      rw [hm] at hmw
      exact ⟨[], [], by rw [hmw]; simp⟩
    | cons u us =>
      rw [hm] at hmw
      have hmw2 : mergeWords (w :: w' :: ws) =
          if isPunctAfterSpace u.headI then (w ++ u) :: us else w :: u :: us := by
        rw [hmw]
      by_cases hp : isPunctAfterSpace u.headI
      · exact ⟨u, us, by rw [hmw2, if_pos hp]⟩
      · exact ⟨[], u :: us, by rw [hmw2, if_neg hp]; simp⟩

theorem joinSpaces_head_cons (a : Char) (v : List Char) (vs : List (List Char)) :
    ∃ zs, joinSpaces ((a :: v) :: vs) = a :: zs := by
  cases vs with
  | nil => exact ⟨v, rfl⟩
  | cons u us => exact ⟨v ++ ' ' :: joinSpaces (u :: us), rfl⟩

theorem joinSpaces_append_head (w v : List Char) (vs : List (List Char)) :
    joinSpaces ((w ++ v) :: vs) = w ++ joinSpaces (v :: vs) := by
  cases vs with
  | nil => rfl
  | cons u us => simp [joinSpaces_cons, List.append_assoc]

theorem rmSBP_specRm_join :
    ∀ ws, goodWords ws →
      rmSpaceBeforePunct (joinSpaces ws) = joinSpaces (mergeWords ws) ∧
        specRmSpace (joinSpaces ws) = joinSpaces (mergeWords ws)
  | [], _ => ⟨rfl, rfl⟩
  | [w], h => by
    have hw := h w (List.mem_singleton.mpr rfl)
    have h1 : rmSpaceBeforePunct w = w := by
      have h0 := rmSBP_append_word w [] hw.2
      rw [List.append_nil] at h0
      exact h0.trans (by rw [show rmSpaceBeforePunct ([] : List Char) = [] from rfl,
        List.append_nil])
    have h2 : specRmSpace w = w := by
      have h0 := specRm_append_word w [] hw.2
      rw [List.append_nil] at h0
      exact h0.trans (by rw [show specRmSpace ([] : List Char) = [] from rfl,
        List.append_nil])
    exact ⟨h1, h2⟩
  | w :: w' :: ws, h => by
    have hgood' : goodWords (w' :: ws) := fun u hu => h u (List.mem_cons_of_mem w hu)
    have hw := h w (List.mem_cons_self _ _)
    obtain ⟨ih1, ih2⟩ := rmSBP_specRm_join (w' :: ws) hgood'
    obtain ⟨r, vs, hm⟩ := mergeWords_head w' ws
    obtain ⟨b, w3, hb⟩ : ∃ b w3, w' = b :: w3 := by
      cases hw' : w' with
      | nil => exact absurd hw' (hgood' w' (List.mem_cons_self _ _)).1
      | cons b w3 => exact ⟨b, w3, rfl⟩
    have hvhead : (w' ++ r).headI = b := by rw [hb]; rfl
    obtain ⟨zs, hjv⟩ : ∃ zs, joinSpaces ((w' ++ r) :: vs) = b :: zs := by
      rw [hb, List.cons_append]
      exact joinSpaces_head_cons b _ vs
    obtain ⟨zs', hJ'⟩ : ∃ zs', joinSpaces (w' :: ws) = b :: zs' := by
      rw [hb]
      exact joinSpaces_head_cons b w3 ws
    have hrest : rmSpaceBeforePunct (joinSpaces (w' :: ws)) = b :: zs := by
      rw [ih1, hm, hjv]
    have hrest2 : specRmSpace (joinSpaces (w' :: ws)) = b :: zs := by
      rw [ih2, hm, hjv]
    have hmw := mergeWords_two_step w w' ws
    rw [hm] at hmw
    have hmw2 : mergeWords (w :: w' :: ws) =
        if isPunctAfterSpace (w' ++ r).headI then (w ++ (w' ++ r)) :: vs
        else w :: (w' ++ r) :: vs := by
      rw [hmw]
    have hstep1 : rmSpaceBeforePunct (joinSpaces (w :: w' :: ws)) =
        w ++ rmSpaceBeforePunct (' ' :: joinSpaces (w' :: ws)) := by
      rw [joinSpaces_cons]
      exact rmSBP_append_word w _ hw.2
    have hstep2 : specRmSpace (joinSpaces (w :: w' :: ws)) =
        w ++ specRmSpace (' ' :: joinSpaces (w' :: ws)) := by
      rw [joinSpaces_cons]
      exact specRm_append_word w _ hw.2
    by_cases hp : isPunctAfterSpace b = true
    · have hsp : rmSpaceBeforePunct (' ' :: joinSpaces (w' :: ws)) = b :: zs :=
        rmSBP_cons_space_of_punct (by decide) hrest hp
      have hspec : specRmSpace (' ' :: joinSpaces (w' :: ws)) = b :: zs := by
        rw [hJ', specRm_space_cons, if_pos hp, ← hJ', hrest2]
      constructor
      · rw [hstep1, hsp, hmw2, hvhead, if_pos hp, joinSpaces_append_head, hjv]
      · rw [hstep2, hspec, hmw2, hvhead, if_pos hp, joinSpaces_append_head, hjv]
    · have hp' : isPunctAfterSpace b = false := by simpa using hp
      have hsp : rmSpaceBeforePunct (' ' :: joinSpaces (w' :: ws)) = ' ' :: b :: zs :=
        rmSBP_cons_space_of_not_punct (by decide) hrest hp'
      have hspec : specRmSpace (' ' :: joinSpaces (w' :: ws)) = ' ' :: b :: zs := by
        rw [hJ', specRm_space_cons, if_neg (by simp [hp']), ← hJ', hrest2]
      constructor
      · rw [hstep1, hsp, hmw2, hvhead, if_neg (by simp [hp']), joinSpaces_cons, hjv]
      · rw [hstep2, hspec, hmw2, hvhead, if_neg (by simp [hp']), joinSpaces_cons, hjv]

theorem pyWords_joinSpaces :
    ∀ ws, goodWords ws → pyWords (joinSpaces ws) = ws
  | [], _ => rfl
  | [w], h => by
    have hw := h w (List.mem_singleton.mpr rfl)
    exact pyWords_word w hw.1 hw.2
  | w :: w' :: ws, h => by
    have hw := h w (List.mem_cons_self _ _)
    have ih := pyWords_joinSpaces (w' :: ws) fun u hu => h u (List.mem_cons_of_mem w hu)
    rw [joinSpaces_cons]
    show pyWordsAux [] (w ++ ' ' :: joinSpaces (w' :: ws)) = _
    rw [pyWordsAux_append_space (joinSpaces (w' :: ws)) w []]
    rw [show pyWordsAux [] w = [w] from pyWords_word w hw.1 hw.2,
      show pyWordsAux [] (joinSpaces (w' :: ws)) = w' :: ws from ih]
    rfl

theorem noPunctHeads_merge :
    ∀ ws, goodWords ws → noPunctHeads (mergeWords ws)
  | [], _ => trivial
  | [_], _ => trivial
  | w :: w' :: ws, h => by
    have hgood' : goodWords (w' :: ws) := fun u hu => h u (List.mem_cons_of_mem w hu)
    have ih := noPunctHeads_merge (w' :: ws) hgood'
    have hmw := mergeWords_two_step w w' ws
    cases hm : mergeWords (w' :: ws) with
    | nil =>
      rw [hm] at hmw
      rw [hmw]
      trivial
    | cons u us =>
      rw [hm] at hmw
      have hmw2 : mergeWords (w :: w' :: ws) =
          if isPunctAfterSpace u.headI then (w ++ u) :: us else w :: u :: us := by
        rw [hmw]
      rw [hm] at ih
      by_cases hp : isPunctAfterSpace u.headI
      · rw [hmw2, if_pos hp]
        cases us with
        | nil => trivial
        | cons x us' => exact ⟨ih.1, ih.2⟩
      · rw [hmw2, if_neg hp]
        exact ⟨by simpa using hp, ih⟩

theorem mergeWords_of_noPunctHeads :
    ∀ ws, noPunctHeads ws → mergeWords ws = ws
  | [], _ => rfl
  | [_], _ => rfl
  | w :: w' :: ws, h => by
    have ih := mergeWords_of_noPunctHeads (w' :: ws) h.2
    have hmw := mergeWords_two_step w w' ws
    rw [ih] at hmw
    have hmw2 : mergeWords (w :: w' :: ws) =
        if isPunctAfterSpace w'.headI then (w ++ w') :: ws else w :: w' :: ws := by
      rw [hmw]
    rw [hmw2, if_neg (by simp [h.1])]

theorem clean_text_some_eq (s : String) :
    clean_text (some s) =
      if String.mk (rmSpaceBeforePunct (pyStripChars (collapseWs s.data))) = "" then none
      else some (String.mk (rmSpaceBeforePunct (pyStripChars (collapseWs s.data)))) := rfl

theorem clean_text_eq_specNormalize (s : String) :
    clean_text (some s) = specNormalize s := by
  have hgood := goodWords_pyWords s.data
  have hcore : rmSpaceBeforePunct (pyStripChars (collapseWs s.data)) =
      joinSpaces (mergeWords (pyWords s.data)) := by
    rw [normEq, (rmSBP_specRm_join _ hgood).1]
  have hspec : specRmSpace (joinSpaces (pyWords s.data)) =
      joinSpaces (mergeWords (pyWords s.data)) := (rmSBP_specRm_join _ hgood).2
  rw [clean_text_some_eq, hcore]
  unfold specNormalize
  rw [hspec]
  by_cases hX : joinSpaces (mergeWords (pyWords s.data)) = []
  · rw [hX]
    simp
  · rw [if_neg hX, if_neg ?hne]
    case hne =>
      intro hcon
      exact hX (congrArg String.data hcon)

theorem clean_text_strip (u : String) :
    clean_text (some (pyStrip u)) = clean_text (some u) := by
  have h : pyStripChars (collapseWs (pyStrip u).data) = pyStripChars (collapseWs u.data) := by
    rw [normEq, normEq]
    show joinSpaces (pyWords (pyStripChars u.data)) = _
    rw [pyWords_stripChars]
  rw [clean_text_some_eq, clean_text_some_eq u, h]

theorem clean_text_idem {s t : String} (h : clean_text (some s) = some t) :
    clean_text (some t) = some t := by
  rw [clean_text_some_eq] at h
  by_cases hc : String.mk (rmSpaceBeforePunct (pyStripChars (collapseWs s.data))) = ""
  · rw [if_pos hc] at h
    exact absurd h (by simp)
  · rw [if_neg hc] at h
    have ht : String.mk (rmSpaceBeforePunct (pyStripChars (collapseWs s.data))) = t :=
      Option.some_inj.mp h
    have hgood := goodWords_pyWords s.data
    have hws2good := mergeWords_good _ hgood
    have htd : t.data = joinSpaces (mergeWords (pyWords s.data)) := by
      rw [← ht]
      show rmSpaceBeforePunct (pyStripChars (collapseWs s.data)) = _
      rw [normEq, (rmSBP_specRm_join _ hgood).1]
    have hcore : rmSpaceBeforePunct (pyStripChars (collapseWs t.data)) = t.data := by
      rw [normEq, htd, pyWords_joinSpaces _ hws2good, (rmSBP_specRm_join _ hws2good).1,
        mergeWords_of_noPunctHeads _ (noPunctHeads_merge _ hgood), ← htd]
    rw [clean_text_some_eq, hcore]
    have heta : String.mk t.data = t := rfl
    rw [heta, if_neg ?tne]
    case tne =>
      rw [← ht] at *
      exact hc

/-! ## Category traversal -/

theorem processMembers_cons_skip {m : Member} (ms : List Member) (q p : List String)
    (h : m.title = "") : processMembers (m :: ms) q p = processMembers ms q p := by
  simp [processMembers, h]

theorem processMembers_cons_cat {m : Member} (ms : List Member) (q p : List String)
    (h1 : ¬m.title = "") (h2 : m.ns = 14) :
    processMembers (m :: ms) q p = processMembers ms (q ++ [m.title]) p := by
  simp [processMembers, h1, h2]

theorem processMembers_cons_page {m : Member} (ms : List Member) (q p : List String)
    (h1 : ¬m.title = "") (h2 : ¬m.ns = 14) (h3 : m.ns = 0) :
    processMembers (m :: ms) q p = processMembers ms q (setAdd m.title p) := by
  simp [processMembers, h1, h2, h3]

theorem processMembers_cons_other {m : Member} (ms : List Member) (q p : List String)
    (h1 : ¬m.title = "") (h2 : ¬m.ns = 14) (h3 : ¬m.ns = 0) :
    processMembers (m :: ms) q p = processMembers ms q p := by
  simp [processMembers, h1, h2, h3]

theorem catTitles_cons_pos {m : Member} (ms : List Member) (h1 : ¬m.title = "")
    (h2 : m.ns = 14) : catTitles (m :: ms) = m.title :: catTitles ms := by
  simp [catTitles, List.filter_cons, h1, h2]

theorem catTitles_cons_neg {m : Member} (ms : List Member)
    (h : m.title = "" ∨ ¬m.ns = 14) : catTitles (m :: ms) = catTitles ms := by
  rcases h with h | h <;> simp [catTitles, List.filter_cons, h]

theorem pageTitles_cons_pos {m : Member} (ms : List Member) (h1 : ¬m.title = "")
    (h2 : ¬m.ns = 14) (h3 : m.ns = 0) :
    pageTitles (m :: ms) = m.title :: pageTitles ms := by
  simp [pageTitles, List.filter_cons, h1, h2, h3]

theorem pageTitles_cons_neg {m : Member} (ms : List Member)
    (h : m.title = "" ∨ m.ns = 14 ∨ ¬m.ns = 0) : pageTitles (m :: ms) = pageTitles ms := by
  rcases h with h | h | h
  · simp [pageTitles, List.filter_cons, h]
  · have : ¬m.ns = 0 := by omega
    simp [pageTitles, List.filter_cons, h, this]
  · simp [pageTitles, List.filter_cons, h]

theorem processMembers_queue :
    ∀ (ms : List Member) (q p : List String),
      (processMembers ms q p).1 = q ++ catTitles ms
  | [], q, p => by simp [processMembers, catTitles]
  | m :: ms, q, p => by
    by_cases h1 : m.title = ""
    · rw [processMembers_cons_skip ms q p h1, processMembers_queue ms q p,
        catTitles_cons_neg ms (Or.inl h1)]
    · by_cases h2 : m.ns = 14
      · rw [processMembers_cons_cat ms q p h1 h2, processMembers_queue ms _ p,
          catTitles_cons_pos ms h1 h2, List.append_assoc]
        rfl
      · by_cases h3 : m.ns = 0
        · rw [processMembers_cons_page ms q p h1 h2 h3, processMembers_queue ms q _,
            catTitles_cons_neg ms (Or.inr h2)]
        · rw [processMembers_cons_other ms q p h1 h2 h3, processMembers_queue ms q p,
            catTitles_cons_neg ms (Or.inr h2)]

theorem mem_setAdd {t x : String} {p : List String} :
    t ∈ setAdd x p ↔ t = x ∨ t ∈ p := by
  unfold setAdd
  by_cases hx : x ∈ p
  · rw [if_pos hx]
    constructor
    · exact Or.inr
    · rintro (rfl | h)
      · exact hx
      · exact h
  · rw [if_neg hx]
    exact List.mem_cons

theorem nodup_setAdd {x : String} {p : List String} (h : p.Nodup) : (setAdd x p).Nodup := by
  unfold setAdd
  by_cases hx : x ∈ p
  · rwa [if_pos hx]
  · rw [if_neg hx]
    exact List.Nodup.cons hx h

theorem processMembers_pages :
    ∀ (ms : List Member) (q p : List String) (t : String),
      t ∈ (processMembers ms q p).2 ↔ t ∈ p ∨ t ∈ pageTitles ms
  | [], q, p, t => by simp [processMembers, pageTitles]
  | m :: ms, q, p, t => by
    by_cases h1 : m.title = ""
    · rw [processMembers_cons_skip ms q p h1, processMembers_pages ms q p t,
        pageTitles_cons_neg ms (Or.inl h1)]
    · by_cases h2 : m.ns = 14
      · rw [processMembers_cons_cat ms q p h1 h2, processMembers_pages ms _ p t,
          pageTitles_cons_neg ms (Or.inr (Or.inl h2))]
      · by_cases h3 : m.ns = 0
        · rw [processMembers_cons_page ms q p h1 h2 h3, processMembers_pages ms q _ t,
            pageTitles_cons_pos ms h1 h2 h3, mem_setAdd]
          rw [List.mem_cons]
          tauto
        · rw [processMembers_cons_other ms q p h1 h2 h3, processMembers_pages ms q p t,
            pageTitles_cons_neg ms (Or.inr (Or.inr h3))]

theorem processMembers_pages_nodup :
    ∀ (ms : List Member) (q p : List String), p.Nodup → (processMembers ms q p).2.Nodup
  | [], _, _, h => h
  | m :: ms, q, p, h => by
    by_cases h1 : m.title = ""
    · rw [processMembers_cons_skip ms q p h1]
      exact processMembers_pages_nodup ms q p h
    · by_cases h2 : m.ns = 14
      · rw [processMembers_cons_cat ms q p h1 h2]
        exact processMembers_pages_nodup ms _ p h
      · by_cases h3 : m.ns = 0
        · rw [processMembers_cons_page ms q p h1 h2 h3]
          exact processMembers_pages_nodup ms q _ (nodup_setAdd h)
        · rw [processMembers_cons_other ms q p h1 h2 h3]
          exact processMembers_pages_nodup ms q p h

theorem members_length_le :
    ∀ (g : Graph) (c : String), (Graph.members g c).length ≤ totalMembers g
  | [], _ => by simp [Graph.members, totalMembers]
  | e :: g, c => by
    unfold Graph.members totalMembers
    by_cases h : e.1 = c
    · rw [if_pos h]
      simp only [List.map_cons, List.sum_cons]
      omega
    · rw [if_neg h]
      have := members_length_le g c
      unfold totalMembers at this
      simp only [List.map_cons, List.sum_cons]
      omega

theorem catTitles_length_le (ms : List Member) : (catTitles ms).length ≤ ms.length := by
  unfold catTitles
  rw [List.length_map]
  exact List.length_filter_le _ ms

theorem catTitles_sub_univ :
    ∀ (g : Graph) (c t : String), t ∈ catTitles (Graph.members g c) → t ∈ catUniverse g
  | [], c, t => by simp [Graph.members, catTitles]
  | e :: g, c, t => by
    intro h
    unfold catUniverse
    by_cases he : e.1 = c
    · rw [show Graph.members (e :: g) c = e.2 from by simp [Graph.members, he]] at h
      simp only [List.flatMap_cons]
      exact List.mem_cons_of_mem _ (List.mem_append_left _ h)
    · rw [show Graph.members (e :: g) c = Graph.members g c from by
        simp [Graph.members, he]] at h
      have := catTitles_sub_univ g c t h
      unfold catUniverse at this
      simp only [List.flatMap_cons]
      rcases List.mem_cons.mp this with h' | h'
      · exact List.mem_cons.mpr (Or.inl h')
      · exact List.mem_cons_of_mem _ (List.mem_append_right _ h')

theorem unseenCount_cons_le (U seen : List String) (c : String) :
    unseenCount U (c :: seen) ≤ unseenCount U seen := by
  unfold unseenCount
  refine (List.monotone_filter_right U ?_).length_le
  intro a ha
  simp only [List.contains_cons, Bool.not_eq_true', Bool.or_eq_false_iff] at ha ⊢
  exact ha.2

theorem unseenCount_cons_lt :
    ∀ (U : List String) (seen : List String) (c : String), c ∈ U → c ∉ seen →
      unseenCount U (c :: seen) < unseenCount U seen
  | [], _, c, hU, _ => by cases hU
  | u :: U, seen, c, hU, hs => by
    unfold unseenCount
    by_cases huc : u = c
    · subst huc
      have hold : (!seen.contains u) = true := by
        simp only [Bool.not_eq_true', List.contains, List.elem_eq_mem, decide_eq_false_iff_not]
        exact hs
      have hnew : (!(u :: seen).contains u) = false := by
        simp [List.contains_cons]
      rw [List.filter_cons, List.filter_cons, hold, hnew]
      simp only [Bool.false_eq_true, if_false, if_true, List.length_cons]
      have := unseenCount_cons_le U seen u
      unfold unseenCount at this
      omega
    · have hsame : ∀ b : Bool, (!(c :: seen).contains u) = b ↔ (!seen.contains u) = b := by
        intro b
        simp only [List.contains_cons]
        have : (u == c) = false := by simpa using huc
        simp [this]
      rw [List.filter_cons, List.filter_cons]
      have hcu : c ∈ U := by
        rcases List.mem_cons.mp hU with h | h
        · exact absurd h.symm huc
        · exact h
      have ih := unseenCount_cons_lt U seen c hcu hs
      unfold unseenCount at ih
      by_cases hb : (!seen.contains u) = true
      · rw [hb, (hsame true).mpr hb]
        simp only [if_true, List.length_cons]
        omega
      · have hb' : (!seen.contains u) = false := by simpa using hb
        rw [hb', (hsame false).mpr hb']
        simpa using ih

theorem unseenCount_le_length (U seen : List String) : unseenCount U seen ≤ U.length :=
  List.length_filter_le _ U

theorem discoverLoop_term :
    ∀ (g : Graph) (fuel : Nat) (st : DState),
      (∀ c ∈ st.queue, c ∈ catUniverse g) → dMeasure g st ≤ fuel →
      (discoverLoop g fuel st).queue = []
  | g, 0, st, _, hm => by
    unfold dMeasure at hm
    have : st.queue.length = 0 := by omega
    rw [show discoverLoop g 0 st = st from rfl]
    exact List.length_eq_zero.mp this
  | g, fuel + 1, st, hsub, hm => by
    cases hq : st.queue with
    | nil =>
      rw [show discoverLoop g (fuel + 1) st = st from by simp [discoverLoop, hq]]
      exact hq
    | cons c rest =>
      by_cases hseen : c ∈ st.seen
      · rw [show discoverLoop g (fuel + 1) st =
            discoverLoop g fuel ⟨rest, st.seen, st.pages, st.visits⟩ from by
            simp [discoverLoop, hq, hseen]]
        refine discoverLoop_term g fuel _ ?_ ?_
        · intro x hx
          exact hsub x (by rw [hq]; exact List.mem_cons_of_mem c hx)
        · unfold dMeasure at hm ⊢
          rw [hq] at hm
          simp only [List.length_cons] at hm
          dsimp only
          omega
      · rw [show discoverLoop g (fuel + 1) st =
            discoverLoop g fuel
              ⟨(processMembers (g.members c) rest st.pages).1, c :: st.seen,
                (processMembers (g.members c) rest st.pages).2, st.visits ++ [c]⟩ from by
            simp [discoverLoop, hq, hseen]]
        have hcU : c ∈ catUniverse g := hsub c (by rw [hq]; exact List.mem_cons_self c rest)
        refine discoverLoop_term g fuel _ ?_ ?_
        · intro x hx
          rw [processMembers_queue] at hx
          rcases List.mem_append.mp hx with hx | hx
          · exact hsub x (by rw [hq]; exact List.mem_cons_of_mem c hx)
          · exact catTitles_sub_univ g c x hx
        · unfold dMeasure at hm ⊢
          rw [hq] at hm
          simp only [List.length_cons] at hm
          dsimp only
          rw [processMembers_queue, List.length_append]
          have hlt := unseenCount_cons_lt (catUniverse g) st.seen c hcU hseen
          have hmul : unseenCount (catUniverse g) (c :: st.seen) * (totalMembers g + 1) +
              (totalMembers g + 1) ≤
              unseenCount (catUniverse g) st.seen * (totalMembers g + 1) := by
            have h1 : unseenCount (catUniverse g) (c :: st.seen) + 1 ≤
                unseenCount (catUniverse g) st.seen := hlt
            calc unseenCount (catUniverse g) (c :: st.seen) * (totalMembers g + 1) +
                  (totalMembers g + 1)
                = (unseenCount (catUniverse g) (c :: st.seen) + 1) * (totalMembers g + 1) := by
                  ring
              _ ≤ unseenCount (catUniverse g) st.seen * (totalMembers g + 1) :=
                  Nat.mul_le_mul_right _ h1
          have hcat : (catTitles (g.members c)).length ≤ totalMembers g :=
            le_trans (catTitles_length_le _) (members_length_le g c)
          omega

theorem DInv_init (g : Graph) : DInv g initState := by
  refine ⟨?_, ?_, ?_, ?_, ?_, ?_, ?_, ?_⟩
  · intro c hc
    simp [initState] at hc
  · intro c hc
    simp only [initState, List.mem_singleton] at hc
    subst hc
    exact Relation.ReflTransGen.refl
  · exact Or.inr (List.mem_singleton.mpr rfl)
  · intro a ha
    simp [initState] at ha
  · intro t
    simp [initState]
  · exact List.nodup_nil
  · exact List.nodup_nil
  · intro c hc
    simp [initState] at hc

theorem discoverLoop_inv :
    ∀ (g : Graph) (fuel : Nat) (st : DState), DInv g st → DInv g (discoverLoop g fuel st)
  | g, 0, st, h => h
  | g, fuel + 1, st, h => by
    cases hq : st.queue with
    | nil =>
      rw [show discoverLoop g (fuel + 1) st = st from by simp [discoverLoop, hq]]
      exact h
    | cons c rest =>
      by_cases hseen : c ∈ st.seen
      · rw [show discoverLoop g (fuel + 1) st =
            discoverLoop g fuel ⟨rest, st.seen, st.pages, st.visits⟩ from by
            simp [discoverLoop, hq, hseen]]
        refine discoverLoop_inv g fuel _ ⟨?_, ?_, ?_, ?_, ?_, ?_, ?_, ?_⟩
        · exact h.seenReach
        · intro x hx
          exact h.queueReach x (by rw [hq]; exact List.mem_cons_of_mem c hx)
        · rcases h.rootDone with hr | hr
          · exact Or.inl hr
          · rw [hq] at hr
            rcases List.mem_cons.mp hr with hr | hr
            · exact Or.inl (hr ▸ hseen)
            · exact Or.inr hr
        · intro a ha b hb
          rcases h.closed a ha b hb with hx | hx
          · exact Or.inl hx
          · rw [hq] at hx
            rcases List.mem_cons.mp hx with hx | hx
            · exact Or.inl (hx ▸ hseen)
            · exact Or.inr hx
        · exact h.pagesChar
        · exact h.pagesNodup
        · exact h.visitsNodup
        · exact h.visitsSeen
      · rw [show discoverLoop g (fuel + 1) st =
            discoverLoop g fuel
              ⟨(processMembers (g.members c) rest st.pages).1, c :: st.seen,
                (processMembers (g.members c) rest st.pages).2, st.visits ++ [c]⟩ from by
            simp [discoverLoop, hq, hseen]]
        have hreachc : ReachableCat g c :=
          h.queueReach c (by rw [hq]; exact List.mem_cons_self c rest)
        refine discoverLoop_inv g fuel _ ⟨?_, ?_, ?_, ?_, ?_, ?_, ?_, ?_⟩
        · intro x hx
          rcases List.mem_cons.mp hx with hx | hx
          · exact hx ▸ hreachc
          · exact h.seenReach x hx
        · intro x hx
          rw [processMembers_queue] at hx
          rcases List.mem_append.mp hx with hx | hx
          · exact h.queueReach x (by rw [hq]; exact List.mem_cons_of_mem c hx)
          · exact Relation.ReflTransGen.tail hreachc hx
        · rcases h.rootDone with hr | hr
          · exact Or.inl (List.mem_cons_of_mem c hr)
          · rw [hq] at hr
            rcases List.mem_cons.mp hr with hr | hr
            · exact Or.inl (hr ▸ List.mem_cons_self c st.seen)
            · exact Or.inr (by rw [processMembers_queue]; exact List.mem_append_left _ hr)
        · intro a ha b hb
          rcases List.mem_cons.mp ha with ha | ha
          · subst ha
            refine Or.inr ?_
            rw [processMembers_queue]
            exact List.mem_append_right _ hb
          · rcases h.closed a ha b hb with hx | hx
            · exact Or.inl (List.mem_cons_of_mem c hx)
            · rw [hq] at hx
              rcases List.mem_cons.mp hx with hx | hx
              · exact Or.inl (hx ▸ List.mem_cons_self c st.seen)
              · exact Or.inr (by rw [processMembers_queue]; exact List.mem_append_left _ hx)
        · intro t
          rw [processMembers_pages, h.pagesChar t]
          constructor
          · rintro (⟨x, hx, ht⟩ | ht)
            · exact ⟨x, List.mem_cons_of_mem c hx, ht⟩
            · exact ⟨c, List.mem_cons_self c st.seen, ht⟩
          · rintro ⟨x, hx, ht⟩
            rcases List.mem_cons.mp hx with hx | hx
            · exact Or.inr (hx ▸ ht)
            · exact Or.inl ⟨x, hx, ht⟩
        · exact processMembers_pages_nodup _ _ _ h.pagesNodup
        · rw [List.nodup_append]
          refine ⟨h.visitsNodup, List.nodup_singleton c, ?_⟩
          intro x hx hx'
          rw [List.mem_singleton] at hx'
          subst hx'
          exact hseen (h.visitsSeen x hx)
        · intro x hx
          rcases List.mem_append.mp hx with hx | hx
          · exact List.mem_cons_of_mem c (h.visitsSeen x hx)
          · rw [List.mem_singleton] at hx
            exact hx ▸ List.mem_cons_self c st.seen

theorem discover_final_char (g : Graph) (st : DState) (hinv : DInv g st)
    (hq : st.queue = []) :
    (∀ c, c ∈ st.seen ↔ ReachableCat g c) ∧ ∀ t, t ∈ st.pages ↔ reachablePage g t := by
  have hclosed : ∀ a ∈ st.seen, ∀ b, catEdge g a b → b ∈ st.seen := by
    intro a ha b hb
    rcases hinv.closed a ha b hb with hx | hx
    · exact hx
    · rw [hq] at hx
      cases hx
  have hroot : "Category:Items" ∈ st.seen := by
    rcases hinv.rootDone with hx | hx
    · exact hx
    · rw [hq] at hx
      cases hx
  have hseen : ∀ c, c ∈ st.seen ↔ ReachableCat g c := by
    intro c
    constructor
    · exact hinv.seenReach c
    · intro hr
      induction hr with
      | refl => exact hroot
      | tail hab hbc ih => exact hclosed _ ih _ hbc
  refine ⟨hseen, fun t => ?_⟩
  rw [hinv.pagesChar t]
  constructor
  · rintro ⟨c, hc, ht⟩
    exact ⟨c, (hseen c).mp hc, ht⟩
  · rintro ⟨c, hc, ht⟩
    exact ⟨c, (hseen c).mpr hc, ht⟩

theorem discover_queue_empty (g : Graph) :
    (discoverLoop g (discoverFuel g) initState).queue = [] := by
  apply discoverLoop_term
  · intro c hc
    simp only [initState, List.mem_singleton] at hc
    subst hc
    exact List.mem_cons_self _ _
  · unfold dMeasure discoverFuel initState
    dsimp only
    have h1 := unseenCount_le_length (catUniverse g) []
    have h2 := Nat.mul_le_mul_right (totalMembers g + 1) h1
    have h3 : (["Category:Items"] : List String).length = 1 := rfl
    omega

theorem discover_inv_final (g : Graph) :
    DInv g (discoverLoop g (discoverFuel g) initState) :=
  discoverLoop_inv g _ _ (DInv_init g)

theorem discover_pages_char (g : Graph) :
    ∀ t, t ∈ (discoverLoop g (discoverFuel g) initState).pages ↔ reachablePage g t :=
  (discover_final_char g _ (discover_inv_final g) (discover_queue_empty g)).2

theorem discover_mem (g : Graph) :
    ∀ t, t ∈ discover_item_pages g ↔ reachablePage g t := by
  intro t
  unfold discover_item_pages
  rw [(List.perm_insertionSort _ _).mem_iff]
  exact discover_pages_char g t

theorem discover_nodup (g : Graph) : (discover_item_pages g).Nodup := by
  unfold discover_item_pages
  exact ((List.perm_insertionSort _ _).nodup_iff).mpr (discover_inv_final g).pagesNodup

theorem discover_sorted (g : Graph) :
    List.Sorted (· ≤ ·) (discover_item_pages g) :=
  List.sorted_insertionSort _ _

theorem reach_congr {g g' : Graph}
    (hag : ∀ c, ReachableCat g c →
      (∀ t, catEdge g' c t ↔ catEdge g c t) ∧
        ∀ t, t ∈ pageTitles (Graph.members g' c) ↔ t ∈ pageTitles (Graph.members g c)) :
    ∀ c, ReachableCat g' c ↔ ReachableCat g c := by
  intro c
  constructor
  · intro hr
    induction hr with
    | refl => exact .refl
    | tail hab hbc ih => exact ih.tail (((hag _ ih).1 _).mp hbc)
  · intro hr
    induction hr with
    | refl => exact .refl
    | tail hab hbc ih => exact ih.tail (((hag _ hab).1 _).mpr hbc)

theorem reachPage_congr {g g' : Graph}
    (hag : ∀ c, ReachableCat g c →
      (∀ t, catEdge g' c t ↔ catEdge g c t) ∧
        ∀ t, t ∈ pageTitles (Graph.members g' c) ↔ t ∈ pageTitles (Graph.members g c)) :
    ∀ t, reachablePage g' t ↔ reachablePage g t := by
  intro t
  constructor
  · rintro ⟨c, hc, ht⟩
    have hc' := (reach_congr hag c).mp hc
    exact ⟨c, hc', ((hag c hc').2 t).mp ht⟩
  · rintro ⟨c, hc, ht⟩
    exact ⟨c, (reach_congr hag c).mpr hc, ((hag c hc).2 t).mpr ht⟩

/-- C1: on every category graph — cyclic ones included — the `while queue:`
loop of `discover_item_pages` terminates (with the stated fuel the queue is
fully drained), and the categories whose members get enumerated form a
duplicate-free sequence: once a category is in the visited set it is never
enumerated again, regardless of how many queue entries reach it. -/
theorem discover_item_pages_terminates_visits_once (g : Graph) :
    (discoverLoop g (discoverFuel g) initState).queue = [] ∧
      ∀ fuel : Nat, ((discoverLoop g fuel initState).visits).Nodup :=
  ⟨discover_queue_empty g,
    fun fuel => (discoverLoop_inv g fuel initState (DInv_init g)).visitsNodup⟩

/-- C2: the title list returned by `discover_item_pages` is duplicate-free
and sorted (lexicographically, Python's string order); a title belongs to it
exactly when it is a main-namespace member of some category reachable from
the root, so a title reachable by several paths appears exactly once; and
any graph presenting the same member sets on reachable categories — in any
order — produces the identical list. -/
theorem discover_item_pages_sorted_unique_extensional (g : Graph) :
    (discover_item_pages g).Nodup ∧
      List.Sorted (· ≤ ·) (discover_item_pages g) ∧
      (∀ t, t ∈ discover_item_pages g ↔ reachablePage g t) ∧
      ∀ g' : Graph,
        (∀ c, ReachableCat g c →
          (∀ t, catEdge g' c t ↔ catEdge g c t) ∧
            ∀ t, t ∈ pageTitles (Graph.members g' c) ↔
              t ∈ pageTitles (Graph.members g c)) →
        discover_item_pages g' = discover_item_pages g := by
  refine ⟨discover_nodup g, discover_sorted g, discover_mem g, ?_⟩
  intro g' hag
  have hperm : List.Perm (discover_item_pages g') (discover_item_pages g) := by
    rw [List.perm_ext_iff_of_nodup (discover_nodup g') (discover_nodup g)]
    intro t
    rw [discover_mem g', discover_mem g]
    exact reachPage_congr hag t
  exact List.eq_of_perm_of_sorted hperm (discover_sorted g') (discover_sorted g)

/-- Witness for C2 on a concrete cyclic graph: reordering each category's
member list leaves the discovered list unchanged, and the doubly-reachable
`ItemA` appears exactly once in the sorted output. -/
theorem discover_item_pages_sorted_unique_extensional_witness :
    discover_item_pages gCycPerm = discover_item_pages gCyc ∧
      discover_item_pages gCyc = ["ItemA", "ItemB"] := by
  constructor
  · apply (discover_item_pages_sorted_unique_extensional gCyc).2.2.2 gCycPerm
    intro c _
    constructor
    · intro t
      by_cases h1 : c = "Category:Items"
      · subst h1
        exact Iff.rfl
      · by_cases h2 : c = "Category:Sub"
        · subst h2
          exact Iff.rfl
        · have e1 : Graph.members gCycPerm c = [] := by
            simp only [gCycPerm, Graph.members]
            rw [if_neg (Ne.symm h1), if_neg (Ne.symm h2)]
          have e2 : Graph.members gCyc c = [] := by
            simp only [gCyc, Graph.members]
            rw [if_neg (Ne.symm h1), if_neg (Ne.symm h2)]
          rw [catEdge, catEdge, e1, e2]
    · intro t
      by_cases h1 : c = "Category:Items"
      · subst h1
        rw [show pageTitles (Graph.members gCycPerm "Category:Items") =
            ["ItemA", "ItemB"] from rfl,
          show pageTitles (Graph.members gCyc "Category:Items") =
            ["ItemB", "ItemA"] from rfl]
        simp only [List.mem_cons, List.mem_singleton]
        tauto
      · by_cases h2 : c = "Category:Sub"
        · subst h2
          exact Iff.rfl
        · have e1 : Graph.members gCycPerm c = [] := by
            simp only [gCycPerm, Graph.members]
            rw [if_neg (Ne.symm h1), if_neg (Ne.symm h2)]
          have e2 : Graph.members gCyc c = [] := by
            simp only [gCyc, Graph.members]
            rw [if_neg (Ne.symm h1), if_neg (Ne.symm h2)]
          rw [e1, e2]
  · decide

/-! ## Text cleaning, rarity and cost claims -/

/-- C6: `clean_text` collapses whitespace runs to single spaces, trims,
removes spaces before `,.;:!?%` — exactly the word-based normalisation
`specNormalize` — maps an empty result (and only an empty result) to
absent, and sends the spec's example to `"Heals faster, grants Exposure!"`. -/
theorem clean_text_claim :
    (∀ s : String, clean_text (some s) = specNormalize s) ∧
      clean_text none = none ∧
      (∀ s : String, clean_text (some s) ≠ some "") ∧
      clean_text (some "  Heals   faster ,  grants Exposure !  ") =
        some "Heals faster, grants Exposure!" := by
  refine ⟨clean_text_eq_specNormalize, rfl, ?_, by decide⟩
  intro s hcon
  rw [clean_text_some_eq] at hcon
  by_cases hc : String.mk (rmSpaceBeforePunct (pyStripChars (collapseWs s.data))) = ""
  · rw [if_pos hc] at hcon
    exact Option.noConfusion hcon
  · rw [if_neg hc] at hcon
    exact hc (Option.some_inj.mp hcon)

theorem deriveRarity_eq_claim :
    ∀ cats : List String, deriveRarity cats = claimRarity cats
  | [] => rfl
  | c :: cs => by
    by_cases h : (strEndsWith " items" (asciiLower c) && !(asciiLower c == "items")) = true
    · unfold deriveRarity claimRarity
      rw [if_pos h, List.find?_cons, h]
      rfl
    · have hb : (strEndsWith " items" (asciiLower c) && !(asciiLower c == "items")) = false := by
        simpa using h
      unfold deriveRarity claimRarity
      rw [if_neg h, List.find?_cons, hb]
      exact deriveRarity_eq_claim cs

/-- C8: the rarity loop of `parse_item_page` picks the first category whose
lowercased name ends in `" items"` and is not exactly `"items"`, strips the
suffix — the `find?`-based `claimRarity` — and the spec's example yields
`"Very Rare"`; with no matching category the rarity stays unset. -/
theorem deriveRarity_claim :
    (∀ cats : List String, deriveRarity cats = claimRarity cats) ∧
      deriveRarity ["Items", "Very Rare Items", "Survivor Items"] = some "Very Rare" ∧
      deriveRarity ["Items", "Survivors"] = none := by
  exact ⟨deriveRarity_eq_claim, by decide, by decide⟩

theorem specImgHint_eq (blob : String) :
    specImgHint blob =
      if strContains "bloodpoints" blob then some "bloodpoints"
      else if strContains "shards" blob then some "iridescent_shards"
      else if strContains "auric" blob || strContains "cells" blob then some "auric_cells"
      else none := by
  by_cases h1 : strContains "bloodpoints" blob <;>
    by_cases h2 : strContains "shards" blob <;>
      by_cases h3 : strContains "auric" blob <;>
        by_cases h4 : strContains "cells" blob <;>
          simp [specImgHint, IMG_HINTS, h1, h2, h3, h4]

theorem imgCurrencyLoop_eq :
    ∀ imgs : List HNode,
      imgCurrencyLoop imgs = ((imgs.filterMap fun img => specImgHint (imgBlob img)).head?)
  | [] => rfl
  | img :: rest => by
    rw [List.filterMap_cons, specImgHint_eq (imgBlob img)]
    by_cases h1 : strContains "bloodpoints" (imgBlob img)
    · simp [imgCurrencyLoop, h1]
    · by_cases h2 : strContains "shards" (imgBlob img)
      · simp [imgCurrencyLoop, h1, h2]
      · by_cases h3 : strContains "auric" (imgBlob img) || strContains "cells" (imgBlob img)
        · simp [imgCurrencyLoop, h1, h2, h3]
        · simp only [imgCurrencyLoop, h1, h2, h3]
          simp only [if_false, Bool.false_eq_true]
          rw [imgCurrencyLoop_eq rest]

theorem textCurrencyLoop_eq :
    ∀ (hints : List (String × String)) (lower : String),
      textCurrencyLoop lower hints = (hints.find? fun h => strContains h.1 lower).map Prod.snd
  | [], _ => rfl
  | (n, m) :: hints, lower => by
    by_cases h : strContains n lower = true
    · unfold textCurrencyLoop
      rw [if_pos h, List.find?_cons, show strContains (n, m).1 lower = true from h]
      rfl
    · have hb : strContains n lower = false := by simpa using h
      unfold textCurrencyLoop
      rw [if_neg h, List.find?_cons, show strContains (n, m).1 lower = false from hb]
      exact textCurrencyLoop_eq hints lower

/-- C5: `parse_cost_cell` is exactly the spec's cost algorithm — currency
from the first image whose blob matches a hint in priority order, else the
first `_CURRENCY_HINTS` needle in the lowercased visible text; amount from
the first digit run (commas stripped) of the visible text — and the spec's
two examples evaluate as stated, including `{amount: 6000, currency: null}`
for `"Cost: 6,000"` with no hint. -/
theorem parse_cost_cell_claim :
    (∀ cell : HNode, parse_cost_cell (some cell) = ⟨claimAmount cell, claimCurrency cell⟩) ∧
      parse_cost_cell none = ⟨none, none⟩ ∧
      parse_cost_cell (some costCellPlain) = ⟨some 6000, none⟩ ∧
      parse_cost_cell (some costCellBp) = ⟨some 5500, some "bloodpoints"⟩ := by
  refine ⟨?_, rfl, by decide, by decide⟩
  intro cell
  unfold parse_cost_cell claimAmount claimCurrency
  simp only [imgCurrencyLoop_eq, textCurrencyLoop_eq]

theorem parse_item_page_none_eq (title : String) (resp : RenderResponse)
    (h : resp.parse = none) :
    parse_item_page title resp = .error ⟨"Missing parse output for page: " ++ title⟩ := by
  unfold parse_item_page
  rw [h]

theorem parse_item_page_some_eq (title : String) (resp : RenderResponse) (p : ParsePayload)
    (h : resp.parse = some p) :
    parse_item_page title resp =
      .ok ⟨title, canonical_page_url title, deriveRarity (filteredCats p.categories),
        (pipIdc p).1, (pipIdc p).2.2, (pipIdc p).2.1, filteredCats p.categories⟩ := by
  unfold parse_item_page
  rw [h]
  rfl

theorem runScrape_split (fetch : String → RenderResponse) :
    ∀ titles : List String,
      (runScrape fetch titles).2 =
        ((titles.filter fun t => (fetch t).parse.isNone).map
          fun t => (⟨t, "Missing parse output for page: " ++ t⟩ : ErrorRecord)) ∧
      (runScrape fetch titles).1.length + (runScrape fetch titles).2.length = titles.length
  | [] => ⟨rfl, rfl⟩
  | t :: ts => by
    have ih := runScrape_split fetch ts
    cases hp : (fetch t).parse with
    | none =>
      have hrun : runScrape fetch (t :: ts) =
          ((runScrape fetch ts).1,
            (⟨t, "Missing parse output for page: " ++ t⟩ : ErrorRecord) ::
              (runScrape fetch ts).2) := by
        simp only [runScrape, parse_item_page_none_eq t (fetch t) hp]
      have hf : (fetch t).parse.isNone = true := by rw [hp]; rfl
      refine ⟨?_, ?_⟩
      · simp only [hrun, List.filter_cons, hf, if_true, List.map_cons]
        rw [ih.1]
      · have h2 := ih.2
        simp only [hrun, List.length_cons]
        omega
    | some p =>
      have hrun : runScrape fetch (t :: ts) =
          ((⟨t, canonical_page_url t, deriveRarity (filteredCats p.categories),
              (pipIdc p).1, (pipIdc p).2.2, (pipIdc p).2.1,
              filteredCats p.categories⟩ : ItemRecord) :: (runScrape fetch ts).1,
            (runScrape fetch ts).2) := by
        simp only [runScrape, parse_item_page_some_eq t (fetch t) p hp]
      have hf : (fetch t).parse.isNone = false := by rw [hp]; rfl
      refine ⟨?_, ?_⟩
      · simp only [hrun, List.filter_cons, hf, Bool.false_eq_true, if_false]
        exact ih.1
      · have h2 := ih.2
        simp only [hrun, List.length_cons]
        omega

/-- C9: `parse_item_page` fails — with the named `FetchError` carrying the
missing-parse message — exactly when the render response lacks a parse
result; in the run loop each such failure becomes one `{title, error}`
entry of `errors` while every remaining title is still processed (each
title lands in exactly one of the two output lists). -/
theorem parse_item_page_missing_parse_claim :
    (∀ (title : String) (resp : RenderResponse),
        (∃ e, parse_item_page title resp = .error e) ↔ resp.parse = none) ∧
      (∀ (title : String) (resp : RenderResponse), resp.parse = none →
        parse_item_page title resp =
          .error ⟨"Missing parse output for page: " ++ title⟩) ∧
      (∀ (fetch : String → RenderResponse) (titles : List String),
        (runScrape fetch titles).2 =
          ((titles.filter fun t => (fetch t).parse.isNone).map
            fun t => (⟨t, "Missing parse output for page: " ++ t⟩ : ErrorRecord)) ∧
        (runScrape fetch titles).1.length + (runScrape fetch titles).2.length =
          titles.length) := by
  refine ⟨?_, parse_item_page_none_eq, fun fetch titles => runScrape_split fetch titles⟩
  intro title resp
  constructor
  · rintro ⟨e, he⟩
    cases hp : resp.parse with
    | none => rfl
    | some p =>
      rw [parse_item_page_some_eq title resp p hp] at he
      exact Except.noConfusion he
  · intro hp
    exact ⟨_, parse_item_page_none_eq title resp hp⟩

theorem parse_item_page_missing_parse_claim_witness :
    parse_item_page "Flashlight" ⟨none⟩ =
      .error ⟨"Missing parse output for page: " ++ "Flashlight"⟩ :=
  parse_item_page_missing_parse_claim.2.1 "Flashlight" ⟨none⟩ rfl

/-- C3: when the response has a parse result but its HTML holds no
`table.wikitable`, `parse_item_page` still returns a record — never an
error — with icon, cost and description all absent while the title, the
canonical URL derived from it, the rarity and the filtered categories are
populated from the payload. -/
theorem parse_item_page_no_table_claim :
    ∀ (title : String) (resp : RenderResponse) (p : ParsePayload),
      resp.parse = some p → selectWikitable p.text = none →
      parse_item_page title resp =
        .ok ⟨title, canonical_page_url title, deriveRarity (filteredCats p.categories),
          none, ⟨none, none⟩, ⟨none, [], none, none⟩, filteredCats p.categories⟩ := by
  intro title resp p hp hn
  rw [parse_item_page_some_eq title resp p hp]
  unfold pipIdc
  rw [hn]

theorem parse_item_page_no_table_claim_witness :
    parse_item_page "Map" ⟨some noTablePayload⟩ =
      .ok ⟨"Map", canonical_page_url "Map", some "Very Rare", none, ⟨none, none⟩,
        ⟨none, [], none, none⟩, ["Items", "Very Rare Items"]⟩ := by
  have h := parse_item_page_no_table_claim "Map" ⟨some noTablePayload⟩ noTablePayload rfl rfl
  rw [h]
  rfl

/-- C10: `join_url` returns the empty string unchanged, so a first-cell
icon image whose `src` attribute is missing or empty yields a record whose
`icon_url` is `some ""` — the empty string, not the absent value. -/
theorem parse_item_page_empty_src_claim :
    join_url "" = "" ∧
      ∀ (title : String) (resp : RenderResponse) (p : ParsePayload)
        (table row c0 img : HNode),
        resp.parse = some p → selectWikitable p.text = some table →
        selectDataRow table = some row → (rowCells row)[0]? = some c0 →
        selectImg c0 = some img → (img.attr "src").getD "" = "" →
        ∃ rec : ItemRecord, parse_item_page title resp = .ok rec ∧ rec.icon_url = some "" := by
  refine ⟨rfl, ?_⟩
  intro title resp p table row c0 img hp ht hr hc hi hs
  refine ⟨_, parse_item_page_some_eq title resp p hp, ?_⟩
  show (pipIdc p).1 = some ""
  simp only [pipIdc, ht, hr, hc, hi, Option.map_some']
  rw [hs]
  rfl

theorem parse_item_page_empty_src_claim_witness :
    join_url "" = "" ∧
      ∃ rec : ItemRecord, parse_item_page "Key" ⟨some pageNoSrc⟩ = .ok rec ∧
        rec.icon_url = some "" :=
  ⟨parse_item_page_empty_src_claim.1,
   parse_item_page_empty_src_claim.2 "Key" ⟨some pageNoSrc⟩ pageNoSrc noSrcTable noSrcRow
     noSrcCell noSrcImg rfl rfl rfl rfl rfl rfl⟩

theorem find?_append_false {α : Type} {p : α → Bool} :
    ∀ {l₁ : List α} (l₂ : List α), (∀ x ∈ l₁, p x = false) →
      (l₁ ++ l₂).find? p = l₂.find? p
  | [], _, _ => rfl
  | a :: l₁, l₂, h => by
    have ha : p a = false := h a (List.mem_cons_self a l₁)
    rw [List.cons_append, List.find?_cons, ha,
      find?_append_false l₂ fun x hx => h x (List.mem_cons_of_mem a hx)]

theorem forestElems_cons (n : HNode) (ns : List HNode) :
    forestElems (n :: ns) = nodeElems n ++ forestElems ns := rfl

theorem forestElems_append :
    ∀ l₁ l₂ : List HNode, forestElems (l₁ ++ l₂) = forestElems l₁ ++ forestElems l₂
  | [], _ => rfl
  | n :: l₁, l₂ => by
    rw [List.cons_append, forestElems_cons, forestElems_cons,
      forestElems_append l₁ l₂, List.append_assoc]

theorem forestHasUl_false_mem {l : List HNode} (h : forestHasUl l = false) :
    ∀ n ∈ forestElems l, n.isTag "ul" = false := by
  intro n hn
  unfold forestHasUl at h
  have := List.any_eq_false.mp h n hn
  simpa using this

theorem forestHasUl_false_of (l : List HNode)
    (h : ∀ n ∈ forestElems l, n.isTag "ul" = false) : forestHasUl l = false := by
  unfold forestHasUl
  exact List.any_eq_false.mpr fun n hn => by simp [h n hn]

theorem elem_mem_forestElems :
    ∀ (l : List HNode) {t : String} {a : List (String × String)} {cs : List HNode},
      HNode.elem t a cs ∈ l → HNode.elem t a cs ∈ forestElems l
  | x :: l', t, a, cs, h => by
    rcases List.mem_cons.mp h with h1 | h2
    · rw [forestElems_cons, ← h1]
      exact List.mem_append_left _ (List.mem_cons_self _ _)
    · rw [forestElems_cons]
      exact List.mem_append_right _ (elem_mem_forestElems l' h2)

theorem findUl_split (cell : HNode) (pre : List HNode) (u : HNode) (rest : List HNode)
    (hch : cell.childNodes = pre ++ u :: rest) (hu : u.isTag "ul" = true)
    (hpre : forestHasUl pre = false) : findUl cell = some u := by
  unfold findUl
  rw [hch, forestElems_append,
    find?_append_false _ fun n hn => forestHasUl_false_mem hpre n hn]
  cases u with
  | text s => exact absurd hu (by simp [HNode.isTag])
  | elem t a cs =>
    rw [forestElems_cons]
    show ((HNode.elem t a cs :: forestElems cs) ++ forestElems rest).find? _ = _
    rw [List.cons_append, List.find?_cons, hu]

theorem summaryPartsLoop_split (u : HNode) (rest : List HNode) (hu : u.isTag "ul" = true) :
    ∀ pre : List HNode, (∀ n ∈ pre, n.isTag "ul" = false) →
      summaryPartsLoop (pre ++ u :: rest) =
        pre.filterMap fun n => clean_text (some (nodeText n))
  | [], _ => by
    rw [List.nil_append]
    unfold summaryPartsLoop
    rw [hu]
    simp
  | n :: pre, h => by
    have hn : n.isTag "ul" = false := h n (List.mem_cons_self n pre)
    have ih := summaryPartsLoop_split u rest hu pre fun x hx => h x (List.mem_cons_of_mem n hx)
    rw [List.cons_append]
    simp only [summaryPartsLoop, hn, Bool.false_eq_true, if_false, List.filterMap_cons]
    cases hcl : clean_text (some (nodeText n)) <;> simp [hcl, ih]

theorem findUlCtxAux_split (u : HNode) (rest : List HNode) (hu : u.isTag "ul" = true) :
    ∀ (pre acc : List HNode), (∀ n ∈ forestElems pre, n.isTag "ul" = false) →
      findUlCtxAux acc (pre ++ u :: rest) = some (acc.reverse ++ pre, u)
  | [], acc, _ => by
    cases u with
    | text s => exact absurd hu (by simp [HNode.isTag])
    | elem t a cs =>
      rw [List.nil_append]
      simp only [findUlCtxAux]
      rw [show (t == "ul") = true from hu]
      simp
  | n :: pre, acc, h => by
    cases n with
    | text s =>
      rw [List.cons_append]
      simp only [findUlCtxAux]
      rw [findUlCtxAux_split u rest hu pre (HNode.text s :: acc) h]
      simp
    | elem t a cs =>
      have hhead : HNode.elem t a cs ∈ forestElems (HNode.elem t a cs :: pre) := by
        rw [forestElems_cons]
        exact List.mem_append_left _ (List.mem_cons_self _ _)
      have htag : (HNode.elem t a cs).isTag "ul" = false := h _ hhead
      have hcs : ∀ x ∈ forestElems cs, x.isTag "ul" = false := by
        intro x hx
        refine h x ?_
        rw [forestElems_cons]
        exact List.mem_append_left _ (List.mem_cons_of_mem _ hx)
      have hpre' : ∀ x ∈ forestElems pre, x.isTag "ul" = false := by
        intro x hx
        refine h x ?_
        rw [forestElems_cons]
        exact List.mem_append_right _ hx
      have hno : forestHasUl cs = false := forestHasUl_false_of cs hcs
      rw [List.cons_append]
      simp only [findUlCtxAux]
      rw [show (t == "ul") = false from htag, hno]
      simp only [Bool.false_eq_true, if_false]
      rw [findUlCtxAux_split u rest hu pre (HNode.elem t a cs :: acc) hpre']
      simp

/-- C4 (amended): when the first bulleted list of the cell in document
order is a direct child — `childNodes = pre ++ u :: rest` with `u` a `ul`
and no `ul` occurring in `pre` — the summary is the normalised
concatenation of the sibling content before the list, agreeing with the
spec-side `claimSummary`, and the effects are the normalised item texts of
that first list only, agreeing with the spec-side `claimEffects` exactly
when no `li` lies outside `u`; with no bulleted list anywhere in the cell
the summary stays unset and the effects empty. -/
theorem extract_description_parts_first_list_claim :
    (∀ (cell : HNode) (pre : List HNode) (u : HNode) (rest : List HNode),
      cell.childNodes = pre ++ u :: rest → u.isTag "ul" = true →
      forestHasUl pre = false →
      (extract_description_parts (some cell)).summary = claimSummary cell ∧
      (extract_description_parts (some cell)).effects = liTextsLoop (findLis u) ∧
      (((forestElems pre).filter fun n => n.isTag "li") = [] →
        ((forestElems rest).filter fun n => n.isTag "li") = [] →
        (extract_description_parts (some cell)).effects = claimEffects cell)) ∧
    ∀ cell : HNode, findUl cell = none →
      (extract_description_parts (some cell)).summary = none ∧
      (extract_description_parts (some cell)).effects = [] := by
  constructor
  · intro cell pre u rest hch hu hpre
    have hfind : findUl cell = some u := findUl_split cell pre u rest hch hu hpre
    have hpre' : ∀ n ∈ pre, n.isTag "ul" = false := by
      intro n hn
      cases n with
      | text s => simp [HNode.isTag]
      | elem t a cs =>
        exact forestHasUl_false_mem hpre _ (elem_mem_forestElems pre hn)
    have hsum : (extract_description_parts (some cell)).summary =
        clean_text (some (joinWithSpace (summaryPartsLoop cell.childNodes))) := by
      simp only [extract_description_parts, hfind]
    have heff : (extract_description_parts (some cell)).effects =
        liTextsLoop (findLis u) := by
      simp only [extract_description_parts, hfind]
    have hctx : findUlCtx cell.childNodes = some (pre, u) := by
      unfold findUlCtx
      rw [hch, findUlCtxAux_split u rest hu pre [] fun n hn => forestHasUl_false_mem hpre n hn]
      rfl
    refine ⟨?_, heff, ?_⟩
    · rw [hsum, hch, summaryPartsLoop_split u rest hu pre hpre']
      simp only [claimSummary, hctx]
    · intro hpl hrl
      rw [heff]
      unfold claimEffects
      rw [hch, forestElems_append, List.filter_append, hpl, List.nil_append,
        forestElems_cons, List.filter_append, hrl, List.append_nil]
      cases u with
      | text s => exact absurd hu (by simp [HNode.isTag])
      | elem t a cs =>
        have ht : t = "ul" := by simpa [HNode.isTag] using hu
        subst ht
        show liTextsLoop ((forestElems cs).filter _) =
          liTextsLoop ((HNode.elem "ul" a cs :: forestElems cs).filter _)
        rw [List.filter_cons]
        simp [HNode.isTag]
  · intro cell hnone
    constructor
    · simp only [extract_description_parts, hnone]
      decide
    · simp only [extract_description_parts, hnone]

theorem extract_description_parts_first_list_claim_witness :
    (extract_description_parts (some descCellGood)).summary = claimSummary descCellGood ∧
      (extract_description_parts (some descCellGood)).effects = claimEffects descCellGood ∧
      (extract_description_parts (some descCellGood)).summary = some "Boosts your luck." ∧
      (extract_description_parts (some descCellGood)).effects =
        ["Slightly increases Luck.", "Stacks with other Luck bonuses."] := by
  have h := extract_description_parts_first_list_claim.1 descCellGood
    [HNode.text "Boosts your luck."]
    (HNode.elem "ul" []
      [HNode.elem "li" [] [HNode.text "Slightly increases Luck."],
       HNode.elem "li" [] [HNode.text "Stacks with other Luck bonuses."]])
    [HNode.elem "p" [] [HNode.elem "i" [] [HNode.text "\"Fortune favors the bold.\""]]]
    rfl rfl rfl
  exact ⟨h.1, h.2.2 rfl rfl, by decide, by decide⟩

/-- C4 counterexample: in `descCellNested` the first bulleted list in
document order is nested inside a `div` while a second list follows as a
direct child; the code's summary keeps all direct-child text up to the
direct-child list (including content after the first list's position), and
its effects come from the nested first list only — whereas the claimed
reading yields no summary (nothing precedes the nested list among its
siblings) and one effect per list item of the whole cell. -/
theorem extract_description_parts_first_list_counterexample :
    (extract_description_parts (some descCellNested)).summary = some "Intro E1 Mid" ∧
      claimSummary descCellNested = none ∧
      (extract_description_parts (some descCellNested)).effects = ["E1"] ∧
      claimEffects descCellNested = ["E1", "E2"] := by
  decide

theorem flavorLoop_clean : ∀ pis : List HNode, clean_text (flavorLoop pis) = flavorPick pis
  | [] => rfl
  | ital :: rest => by
    have ih := flavorLoop_clean rest
    unfold flavorPick at ih ⊢
    unfold flavorLoop
    rw [List.filterMap_cons]
    cases hcl : clean_text (some ital.getTextStrip) with
    | none => simpa [hcl] using ih
    | some t =>
      by_cases hq : strContains "\"" t
      · have h1 : clean_text (some (pyStrip t)) = clean_text (some t) := clean_text_strip t
        have h2 : clean_text (some t) = some t := clean_text_idem hcl
        simp [hcl, hq, h1, h2]
      · simpa [hcl, hq] using ih

theorem clean_text_words {a b : String} (h : pyWords a.data = pyWords b.data) :
    clean_text (some a) = clean_text (some b) := by
  rw [clean_text_some_eq a, clean_text_some_eq b, normEq a.data, normEq b.data, h]

theorem pyWords_join :
    ∀ ls : List (List Char), pyWords (joinSpaces ls) = (ls.map pyWords).flatten
  | [] => rfl
  | [w] => by simp [joinSpaces]
  | w :: v :: vs => by
    have ih := pyWords_join (v :: vs)
    show pyWords (w ++ ' ' :: joinSpaces (v :: vs)) = _
    unfold pyWords
    rw [pyWordsAux_append_space]
    show pyWords w ++ pyWords (joinSpaces (v :: vs)) = _
    rw [ih]
    rfl

theorem flatten_words_strip :
    ∀ ss : List String,
      (((ss.map pyStrip).filter fun s => !(s == "")).map fun s => pyWords s.data).flatten =
        (ss.map fun s => pyWords s.data).flatten
  | [] => rfl
  | s :: ss => by
    have ih := flatten_words_strip ss
    have hw : pyWords (pyStrip s).data = pyWords s.data := by
      show pyWords (pyStripChars s.data) = pyWords s.data
      exact pyWords_stripChars s.data
    by_cases he : pyStrip s = ""
    · have h0 : pyWords s.data = [] := by rw [← hw, he]; rfl
      simp [he, h0, ih]
    · simp [he, hw, ih]

/-- C7 (amended): flavor text is, as claimed, the first `p i` element in
document order whose normalised text is non-empty and contains a literal
double quote; `raw_text` is the whole cell's whitespace-normalised text —
but it is populated only when that text is non-empty after normalisation,
matching the spec-side `claimRaw` (which is absent for an empty cell)
rather than being always populated. -/
theorem extract_description_parts_flavor_raw_claim :
    (∀ cell : HNode,
      (extract_description_parts (some cell)).flavor_text = claimFlavor cell ∧
      (extract_description_parts (some cell)).raw_text = claimRaw cell) ∧
      (extract_description_parts (some descCellGood)).flavor_text =
        some "\"Fortune favors the bold.\"" := by
  refine ⟨?_, by decide⟩
  intro cell
  constructor
  · show clean_text (flavorLoop (selectPI cell)) = claimFlavor cell
    exact flavorLoop_clean (selectPI cell)
  · show clean_text (some cell.getTextStrip) = claimRaw cell
    unfold claimRaw
    rw [← clean_text_eq_specNormalize]
    apply clean_text_words
    show pyWords (joinSpaces
        ((((forestStrings cell.childNodes).map pyStrip).filter fun s => !(s == "")).map
          String.data)) =
      pyWords (joinSpaces ((forestStrings cell.childNodes).map String.data))
    rw [pyWords_join, pyWords_join, List.map_map, List.map_map]
    exact flatten_words_strip (forestStrings cell.childNodes)

/-- C7 counterexample: a cell that exists but whose text normalises to
empty has `raw_text` absent, refuting "always populated whenever the cell
exists". -/
theorem extract_description_parts_raw_text_counterexample :
    (extract_description_parts (some emptyCell)).raw_text = none ∧
      (extract_description_parts
        (some (HNode.elem "td" [] [HNode.text "  "]))).raw_text = none := by
  decide
